import Mathlib

/-!
# Verification of the Project-Protector masking pipeline

This file embeds the core algorithms of the Project-Protector repository
(PII masking / encryption / restore) as executable Lean definitions and
proves or refutes the frozen specification claims about them.

Conventions:
* Python strings are modelled as `List Char` (`Str`).  All documents and
  values handled by the repository are text; the embedding treats each
  Python `str` operation by an explicit executable function defined below,
  each matching the corresponding line of the source.
* `hashlib.md5(value.encode()).hexdigest()[:8]` is embedded by a full
  executable MD5 implementation (`md5hexdigest`), operating on the UTF-8
  bytes of the value, exactly as `str.encode()` does.
* Fernet encryption is nondeterministic (random IV); it is modelled by an
  arbitrary function `enc : Nat → Str → Str` receiving the index of the
  encryption call, which captures "two calls may return different
  ciphertexts".  No claim depends on the ciphertext contents: the text
  restore path (`decrypt_text.py`) only uses the `masked`/`original`
  fields of the mapping.
* Python floats in the image pipeline (IoU computation, confidences) are
  modelled as exact rationals `ℚ`.
-/

/-- Python `str` is modelled as a list of characters. -/
abbrev Str := List Char

/-- Coerce a Lean string literal to the `Str` model. -/
def str (s : String) : Str := s.data

/-- ASCII lower-casing of one character, as Python `str.lower()` acts on
the ASCII range (all dictionary/ignore words in the sources are ASCII). -/
def lowerChar (c : Char) : Char :=
  if 'A' ≤ c ∧ c ≤ 'Z' then Char.ofNat (c.toNat + 32) else c

/-- Python `str.lower()`. -/
def lowerStr (s : Str) : Str := s.map lowerChar

/-- Python whitespace test for `str.strip()` (ASCII whitespace). -/
def isSpaceChar (c : Char) : Bool :=
  c = ' ' ∨ c = '\t' ∨ c = '\n' ∨ c = '\r' ∨ c = '\x0b' ∨ c = '\x0c'

/-- Python `str.strip()`. -/
def stripStr (s : Str) : Str :=
  (s.dropWhile isSpaceChar).reverse.dropWhile isSpaceChar |>.reverse

/-- Regex `\w` word character, ASCII range (`[A-Za-z0-9_]`), as used by
`re` word boundaries on the repository's ASCII data. -/
def isWordChar (c : Char) : Bool :=
  ('a' ≤ c ∧ c ≤ 'z') ∨ ('A' ≤ c ∧ c ≤ 'Z') ∨ ('0' ≤ c ∧ c ≤ '9') ∨ c = '_'

/-- Python `str.isdigit()` on a single ASCII character.  Python's
`isdigit` also accepts Unicode digit characters (such as the superscript
two), so theorems that depend on which branch of the substitution a
single-character value takes restrict such values to ASCII, where this
test coincides with the Python one. -/
def isDigitChar (c : Char) : Bool := '0' ≤ c ∧ c ≤ '9'

/-- Python substring test `pat in s` (also regex search for an escaped
literal pattern). -/
def strContains : Str → Str → Bool
  | [], pat => pat.isEmpty
  | s@(_ :: t), pat => pat.isPrefixOf s || strContains t pat

/-! ## MD5

Faithful embedding of `hashlib.md5(...).hexdigest()`, used by
`text_processor.py` to derive masked tags:
`value_hash = hashlib.md5(value.encode()).hexdigest()[:8]`. -/

namespace MD5

/-- Truncate to a 32-bit word. -/
def u32 (n : Nat) : Nat := n % 4294967296

/-- Bitwise NOT within 32 bits. -/
def not32 (n : Nat) : Nat := 4294967295 - u32 n

/-- Left-rotate a 32-bit word by `c` bits. -/
def rotl (x c : Nat) : Nat :=
  u32 (Nat.lor (u32 (Nat.shiftLeft x c)) (Nat.shiftRight (u32 x) (32 - c)))

/-- The 64 MD5 sine-derived constants `K[i] = floor(abs(sin(i+1)) * 2^32)`. -/
def K : List Nat := [
  0xd76aa478, 0xe8c7b756, 0x242070db, 0xc1bdceee,
  0xf57c0faf, 0x4787c62a, 0xa8304613, 0xfd469501,
  0x698098d8, 0x8b44f7af, 0xffff5bb1, 0x895cd7be,
  0x6b901122, 0xfd987193, 0xa679438e, 0x49b40821,
  0xf61e2562, 0xc040b340, 0x265e5a51, 0xe9b6c7aa,
  0xd62f105d, 0x02441453, 0xd8a1e681, 0xe7d3fbc8,
  0x21e1cde6, 0xc33707d6, 0xf4d50d87, 0x455a14ed,
  0xa9e3e905, 0xfcefa3f8, 0x676f02d9, 0x8d2a4c8a,
  0xfffa3942, 0x8771f681, 0x6d9d6122, 0xfde5380c,
  0xa4beea44, 0x4bdecfa9, 0xf6bb4b60, 0xbebfbc70,
  0x289b7ec6, 0xeaa127fa, 0xd4ef3085, 0x04881d05,
  0xd9d4d039, 0xe6db99e5, 0x1fa27cf8, 0xc4ac5665,
  0xf4292244, 0x432aff97, 0xab9423a7, 0xfc93a039,
  0x655b59c3, 0x8f0ccc92, 0xffeff47d, 0x85845dd1,
  0x6fa87e4f, 0xfe2ce6e0, 0xa3014314, 0x4e0811a1,
  0xf7537e82, 0xbd3af235, 0x2ad7d2bb, 0xeb86d391]

/-- The per-step left-rotation amounts. -/
def S : List Nat := [
  7, 12, 17, 22, 7, 12, 17, 22, 7, 12, 17, 22, 7, 12, 17, 22,
  5,  9, 14, 20, 5,  9, 14, 20, 5,  9, 14, 20, 5,  9, 14, 20,
  4, 11, 16, 23, 4, 11, 16, 23, 4, 11, 16, 23, 4, 11, 16, 23,
  6, 10, 15, 21, 6, 10, 15, 21, 6, 10, 15, 21, 6, 10, 15, 21]

/-- Given a 64-byte chunk, produce its 16 little-endian 32-bit words. -/
def chunkWords (bytes : List Nat) : List Nat :=
  (List.range 16).map (fun i =>
    bytes.getD (4*i) 0 + 256 * bytes.getD (4*i+1) 0 +
      65536 * bytes.getD (4*i+2) 0 + 16777216 * bytes.getD (4*i+3) 0)

/-- One MD5 compression step. -/
def step (M : List Nat) (st : Nat × Nat × Nat × Nat) (i : Nat) :
    Nat × Nat × Nat × Nat :=
  let (A, B, C, D) := st
  let (F, g) :=
    if i < 16 then
      (Nat.lor (Nat.land B C) (Nat.land (not32 B) D), i)
    else if i < 32 then
      (Nat.lor (Nat.land D B) (Nat.land (not32 D) C), (5*i + 1) % 16)
    else if i < 48 then
      (Nat.xor B (Nat.xor C D), (3*i + 5) % 16)
    else
      (Nat.xor C (Nat.lor B (not32 D)), (7*i) % 16)
  let F := u32 (F + A + K.getD i 0 + M.getD g 0)
  (D, u32 (B + rotl F (S.getD i 0)), B, C)

/-- Process one 64-byte chunk, updating the state. -/
def processChunk (st : Nat × Nat × Nat × Nat) (bytes : List Nat) :
    Nat × Nat × Nat × Nat :=
  let M := chunkWords bytes
  let (A, B, C, D) := (List.range 64).foldl (step M) st
  let (a0, b0, c0, d0) := st
  (u32 (a0 + A), u32 (b0 + B), u32 (c0 + C), u32 (d0 + D))

/-- Split a byte list into 64-byte chunks (structural recursion on a fuel
bound so that the kernel can evaluate it). -/
def chunksGo : Nat → List Nat → List (List Nat)
  | 0, _ => []
  | _ + 1, [] => []
  | n + 1, b :: t => (b :: t).take 64 :: chunksGo n ((b :: t).drop 64)

/-- Split a byte list into 64-byte chunks. -/
def chunks (bs : List Nat) : List (List Nat) := chunksGo (bs.length + 1) bs

/-- MD5 padding: `0x80`, zeros to 56 mod 64, 8-byte little-endian bit length. -/
def pad (msg : List Nat) : List Nat :=
  let len := msg.length
  let padLen := (55 + 64 - len % 64) % 64 + 1
  let bitLen := 8 * len
  msg ++ (0x80 :: List.replicate (padLen - 1) 0) ++
    (List.range 8).map (fun i => bitLen / 256 ^ i % 256)

/-- Digest of a byte string as the four final state words. -/
def digestWords (msg : List Nat) : Nat × Nat × Nat × Nat :=
  (chunks (pad msg)).foldl processChunk
    (0x67452301, 0xefcdab89, 0x98badcfe, 0x10325476)

/-- Lower-case hex digits. -/
def hexDigit (n : Nat) : Char :=
  (str "0123456789abcdef").getD n '0'

/-- One byte as two hex characters. -/
def hexByte (n : Nat) : Str := [hexDigit (n / 16), hexDigit (n % 16)]

/-- A 32-bit word as 8 hex characters of its little-endian bytes. -/
def hexWordLE (w : Nat) : Str :=
  hexByte (w % 256) ++ hexByte (w / 256 % 256) ++
  hexByte (w / 65536 % 256) ++ hexByte (w / 16777216 % 256)

end MD5

/-- UTF-8 encoding of one character (Python `str.encode()`). -/
def utf8Char (c : Char) : List Nat :=
  let n := c.toNat
  if n < 128 then [n]
  else if n < 2048 then [192 + n / 64, 128 + n % 64]
  else if n < 65536 then [224 + n / 4096, 128 + n / 64 % 64, 128 + n % 64]
  else [240 + n / 262144, 128 + n / 4096 % 64, 128 + n / 64 % 64, 128 + n % 64]

/-- UTF-8 bytes of a string, as Python `value.encode()`. -/
def utf8Bytes (s : Str) : List Nat := s.flatMap utf8Char

/-- `hashlib.md5(value.encode()).hexdigest()`. -/
def md5hexdigest (s : Str) : Str :=
  let (a, b, c, d) := MD5.digestWords (utf8Bytes s)
  MD5.hexWordLE a ++ MD5.hexWordLE b ++ MD5.hexWordLE c ++ MD5.hexWordLE d

/-- `hashlib.md5(value.encode()).hexdigest()[:8]`, the tag hash used by
`text_processor.py` (lines 127 and 195). -/
def md5hex8 (s : Str) : Str := (md5hexdigest s).take 8


/-! ## Text substitution primitives

These embed the string-rewriting operations of `text_processor.py`
(`process_text_optimized`, lines 208-230) and `decrypt_text.py`
(`decrypt_masked_file`, lines 47-65):

* `replaceAll pat rep s` is Python `s.replace(pat, rep)`, which is also the
  behaviour of `re.sub(re.escape(pat), rep, s)` for a non-empty literal
  pattern: leftmost, non-overlapping replacement.  (The sources never
  substitute an empty pattern: `extract_all_pii` drops empty values.)
* `replaceDigitWB d rep s` is `re.sub(r'\b' + d + r'\b', rep, s)` for a
  single digit `d`, the special case taken in `process_text_optimized`
  when `len(pii_value) == 1 and pii_value.isdigit()`.
* `splitTags s` is `re.split(r'(\[ENC:[^\]]+\])', s)`: the even-indexed
  parts are the non-matched spans, the odd-indexed parts the matched tags.

Scanning recursions are written with an explicit character budget (`fuel`)
so that every definition is structurally recursive and kernel-evaluable;
`fuel = s.length` always suffices and the wrappers fix it so. -/

/-- One pass of Python `str.replace` with the given fuel. -/
def replaceAllGo (pat rep : Str) : Nat → Str → Str
  | 0, s => s
  | _ + 1, [] => []
  | n + 1, c :: cs =>
      if pat.isPrefixOf (c :: cs) ∧ pat ≠ [] then
        rep ++ replaceAllGo pat rep n ((c :: cs).drop pat.length)
      else c :: replaceAllGo pat rep n cs

/-- Python `s.replace(pat, rep)` (leftmost, non-overlapping; total), and
`re.sub(re.escape(pat), rep, s)` whenever `rep` contains no backslash:
`re.sub` escape-processes its replacement string (backreferences such as
`\g<0>`, escapes such as `\n`), which is literal insertion exactly for
backslash-free replacements.  The masking pass inserts tags built from
the label and a hex hash, so theorems about it require backslash-free
labels. -/
def replaceAll (pat rep s : Str) : Str := replaceAllGo pat rep s.length s

/-- Scanner for `re.sub(r'\bd\b', rep, s)`, `d` a single word character:
`prevW` records whether the previously scanned character was a word
character (no word boundary directly after it). -/
def replaceDigitWBGo (d : Char) (rep : Str) : Bool → Str → Str
  | _, [] => []
  | prevW, c :: cs =>
      if c = d ∧ prevW = false ∧ ¬ (isWordChar (cs.headD ' ') = true) then
        rep ++ replaceDigitWBGo d rep true cs
      else
        c :: replaceDigitWBGo d rep (isWordChar c) cs

/-- `re.sub(r'\b' + d + r'\b', rep, s)` for a single digit `d`. -/
def replaceDigitWB (d : Char) (rep s : Str) : Str :=
  replaceDigitWBGo d rep false s

/-- The replacement performed inside one non-tag part by
`process_text_optimized` lines 220-228. -/
def substituteValue (v tag part : Str) : Str :=
  if v.length = 1 ∧ isDigitChar (v.headD ' ') = true then
    replaceDigitWB (v.headD ' ') tag part
  else replaceAll v tag part

/-- Try to read one `\[ENC:[^\]]+\]` match at the very start of `s`;
returns the matched span and the remainder. -/
def tryTag (s : Str) : Option (Str × Str) :=
  if (str "[ENC:").isPrefixOf s then
    let rest := s.drop 5
    let body := rest.takeWhile (fun c => c ≠ ']')
    match rest.drop body.length with
    | ']' :: after => if body ≠ [] then some (str "[ENC:" ++ body ++ [']'], after) else none
    | _ => none
  else none

/-- Leftmost `\[ENC:[^\]]+\]` match: `(before, match, after)`. -/
def findTag : Str → Option (Str × Str × Str)
  | [] => none
  | c :: cs =>
      match tryTag (c :: cs) with
      | some (m, after) => some ([], m, after)
      | none =>
          match findTag cs with
          | some (b, m, a) => some (c :: b, m, a)
          | none => none

/-- `re.split(r'(\[ENC:[^\]]+\])', s)` with fuel. -/
def splitTagsGo : Nat → Str → List Str
  | 0, s => [s]
  | n + 1, s =>
      match findTag s with
      | none => [s]
      | some (b, m, a) => b :: m :: splitTagsGo n a

/-- `re.split(r'(\[ENC:[^\]]+\])', s)`: alternating non-tag and tag parts. -/
def splitTags (s : Str) : List Str := splitTagsGo s.length s

/-! ## The mapping builder and the masking / restore pipeline

Embeds `process_text_optimized` (text_processor.py lines 175-251) and the
`.txt` branch of `decrypt_masked_file` (decrypt_text.py lines 47-65).
`process_csv_optimized` (lines 102-173) builds its mapping with the very
same loop (lines 119-138), so `buildMapping` embeds both. -/

/-- A `(label, value)` pair as returned by `extract_all_pii`.  The
detectors themselves (NER model, regexes, dictionaries, ChatGPT) are
external collaborators; the pipeline is verified for an arbitrary
detected list. -/
abbrev PiiEntry := Str × Str

/-- One entry of the persisted JSON mapping:
`{"original": value, "encrypted": enc, "label": label, "masked": unique_tag}`. -/
structure MaskingRecord where
  original : Str
  encrypted : Str
  label : Str
  masked : Str
deriving DecidableEq, Repr

/-- `unique_tag = f"[ENC:{label}_{value_hash}]"` (text_processor.py
lines 127-128 and 195-196). -/
def mkTag (label value : Str) : Str :=
  str "[ENC:" ++ label ++ str "_" ++ md5hex8 value ++ str "]"

/-- The mapping-building loop (text_processor.py lines 189-206 and
119-138): `seen` is the key set of the `unique_pii` dict, `k` counts the
encryption calls made so far; a value is encrypted and recorded only on
its first occurrence. -/
def buildMappingGo (enc : Nat → Str → Str) (seen : List Str) (k : Nat) :
    List PiiEntry → List MaskingRecord
  | [] => []
  | (l, v) :: rest =>
      if seen.contains v then buildMappingGo enc seen k rest
      else ⟨v, enc k v, l, mkTag l v⟩ :: buildMappingGo enc (v :: seen) (k + 1) rest

/-- The full mapping produced from the detected PII list. -/
def buildMapping (enc : Nat → Str → Str) (pii : List PiiEntry) :
    List MaskingRecord :=
  buildMappingGo enc [] 0 pii

/-- Deduplication keeping first occurrences, mirroring the `unique_pii`
dict keys. -/
def dedupSeen (seen : List Str) : List Str → List Str
  | [] => []
  | v :: rest =>
      if seen.contains v then dedupSeen seen rest
      else v :: dedupSeen (v :: seen) rest

/-- Stable insertion sort; `le a b` means `a` may be placed before `b`.
Python's `sorted` is stable, and a stable sort is uniquely determined by
its comparator, so this embeds `sorted(..., key=..., reverse=True)`. -/
def insertLe (le : α → α → Bool) (a : α) : List α → List α
  | [] => [a]
  | b :: bs => if le a b then a :: b :: bs else b :: insertLe le a bs

/-- Stable insertion sort. -/
def insertionSort (le : α → α → Bool) : List α → List α
  | [] => []
  | a :: as => insertLe le a (insertionSort le as)

/-- `sorted(unique_pii.items(), key=lambda x: len(x[0]), reverse=True)`
(text_processor.py line 209): records ordered by decreasing value length,
stably. -/
def sortByValueLen (m : List MaskingRecord) : List MaskingRecord :=
  insertionSort (fun a b => decide (b.original.length ≤ a.original.length)) m

/-- `sorted(mapping_data, key=lambda x: len(x["masked"]), reverse=True)`
(decrypt_text.py line 55). -/
def sortByTagLen (m : List MaskingRecord) : List MaskingRecord :=
  insertionSort (fun a b => decide (b.masked.length ≤ a.masked.length)) m

/-- Substitution applied to the list of `re.split` parts
(text_processor.py lines 217-228): only even-indexed parts that do not
start with `[ENC:` are substituted. -/
def maskParts (v tag : Str) (even : Bool) : List Str → List Str
  | [] => []
  | p :: rest =>
      (if even ∧ ¬ ((str "[ENC:").isPrefixOf p = true) then substituteValue v tag p
       else p) :: maskParts v tag (!even) rest

/-- One replacement pass of `process_text_optimized` (lines 212-230):
split on existing tags, substitute the value in non-tag parts, re-join. -/
def maskPass (v tag text : Str) : Str :=
  (maskParts v tag true (splitTags text)).flatten

/-- The whole masking loop (lines 208-230): one pass per mapping record,
longest value first. -/
def applyMask (mapping : List MaskingRecord) (content : Str) : Str :=
  (sortByValueLen mapping).foldl (fun text r => maskPass r.original r.masked text) content

/-- `process_text_optimized`: returns the masked text and the mapping. -/
def processTextPipeline (enc : Nat → Str → Str) (pii : List PiiEntry)
    (content : Str) : Str × List MaskingRecord :=
  let mapping := buildMapping enc pii
  (applyMask mapping content, mapping)

/-- The `.txt` branch of `decrypt_masked_file` (decrypt_text.py lines
52-61): replace each `masked` tag by its `original`, longest tag first. -/
def restoreText (mapping : List MaskingRecord) (text : Str) : Str :=
  (sortByTagLen mapping).foldl (fun t r => replaceAll r.masked r.original t) text

/-! ## Ignore-word filtering

`_should_ignore_word` (app/services/ocr_jpeg.py lines 16-47) performs
exact whole-word / whole-phrase matching; the legacy image masker
(`加密/解密`, line 195) instead drops an OCR fragment when ANY ignore word
is a substring of it. -/

/-- `re.findall(r'\b\w+\b', text)`: the maximal runs of word characters.
`cur` accumulates the current run in reverse. -/
def wordsOfGo (cur : Str) : Str → List Str
  | [] => if cur = [] then [] else [cur.reverse]
  | c :: cs =>
      if isWordChar c then wordsOfGo (c :: cur) cs
      else if cur = [] then wordsOfGo [] cs
      else cur.reverse :: wordsOfGo [] cs

/-- `re.findall(r'\b\w+\b', text)`. -/
def wordsOf (s : Str) : List Str := wordsOfGo [] s

/-- `' '.join(ws)`. -/
def joinWith (sep : Str) : List Str → Str
  | [] => []
  | [x] => x
  | x :: y :: xs => x ++ sep ++ joinWith sep (y :: xs)

/-- `_should_ignore_word(text, ignore_words)` (ocr_jpeg.py lines 16-47):
exact match of the normalized text, of its word-tokenized phrase, or of
its single token. -/
def shouldIgnoreWord (text : Str) (ignoreWords : List Str) : Bool :=
  let t := lowerStr (stripStr text)
  if ignoreWords.contains t then true
  else
    let tw := wordsOf t
    let phrase := joinWith [' '] tw
    if ignoreWords.contains phrase then true
    else if tw.length = 1 ∧ ignoreWords.contains (tw.headD []) then true
    else false

/-- The `IGNORE_WORDS` set of the current image masker
(`Encryption/Decryption` = tail of ocr_jpeg.py, lines 115-140). -/
def IGNORE_WORDS_IMAGE : List Str :=
  [str "copy", str "confidential", str "draft", str "sample", str "example",
   str "template", str "specimen", str "watermark", str "void", str "duplicate",
   str "original", str "certified", str "true copy",
   str "malaysia", str "mykad", str "identity", str "card", str "identity card",
   str "kad", str "pengenalan", str "kad pengenalan", str "warganegara",
   str "lelaki", str "perempuan", str "bujang", str "kawin",
   str "male", str "female", str "citizen", str "not citizen",
   str "name", str "address", str "phone", str "email", str "type", str "number",
   str "identification", str "passport",
   str "bank", str "account", str "account type", str "account no",
   str "account number", str "bank account", str "bank name",
   str "bank statement", str "statement", str "account holder",
   str "account holder name",
   str "public bank", str "maybank", str "cimb", str "hsbc",
   str "standard chartered", str "uob", str "ocbc",
   str "bank statement example", str "four bank", str "specimen copy"]

/-- The `IGNORE_WORDS` set of the legacy image masker (`加密/解密`,
lines 126-139). -/
def LEGACY_IGNORE_WORDS : List Str :=
  [str "malaysia", str "mykad", str "identity", str "card", str "kad",
   str "pengenalan", str "warganegara", str "lelaki", str "perempuan",
   str "bujang", str "kawin", str "lel", str "per", str "male", str "female",
   str "citizen", str "not citizen", str "id", str "no", str "identification",
   str "type", str "my", str "k", str "your", str "name", str "address",
   str "phone", str "email", str "bank", str "account", str "number",
   str "passport", str "ic", str "ic number", str "ic no", str "ic no.",
   str "Account", str "account no", str "account number", str "bank account",
   str "bank account no", str "bank account number", str "bank name",
   str "bank account name", str "bank account holder",
   str "bank account holder name", str "bank account holder no",
   str "bank account holder id", str "bank account holder ic",
   str "bank account holder passport", str "bank account holder mykad",
   str "bank account holder identity card", str "bank account holder identity",
   str "bank account holder identification", str "bank account holder type",
   str "bank account holder address", str "bank account holder phone",
   str "bank account holder email", str "bank account holder dob",
   str "bank account holder date of birth", str "Account Type",
   str "Account No", str "Account Number", str "Bank Statement",
   str "Bank Account Statement", str "Bank Account Statement No",
   str "Bank Account Statement Number", str "Bank Account Statement Type",
   str "Bank Account Statement Holder", str "Bank Account Statement Holder Name",
   str "Bank Statement Example", str "Four Bank"]

/-- The legacy OCR-stage drop check (`加密/解密`, line 195):
`any(ignore.lower() in text.lower() for ignore in IGNORE_WORDS)` —
substring containment, not whole-word matching. -/
def legacyOcrIgnore (text : Str) : Bool :=
  LEGACY_IGNORE_WORDS.any (fun ig => strContains (lowerStr text) (lowerStr ig))

/-! ## Category filter

The enabled-category policy of the image masker (`Encryption/Decryption`,
lines 146-171). -/

/-- `selectable_categories` (line 148). -/
def SELECTABLE_CATEGORIES : List Str :=
  [str "NAMES", str "RACES", str "ORG_NAMES", str "STATUS",
   str "LOCATIONS", str "RELIGIONS"]

/-- The filtering loop over `pii_entries` (lines 151-171): empty values
are skipped, ignore words are skipped, selectable-category labels are
kept only when enabled, every other label is always kept. -/
def filterPii (enabled : List Str) : List PiiEntry → List PiiEntry
  | [] => []
  | (label, value) :: rest =>
      let cleanVal := lowerStr (stripStr value)
      let originalVal := stripStr value
      if originalVal = [] then filterPii enabled rest
      else if shouldIgnoreWord cleanVal IGNORE_WORDS_IMAGE then filterPii enabled rest
      else if SELECTABLE_CATEGORIES.contains label then
        if enabled.contains label then (label, originalVal) :: filterPii enabled rest
        else filterPii enabled rest
      else (label, originalVal) :: filterPii enabled rest

/-! ## Consensus merger

`combine_pii_results` (app/services/pii_main.py lines 384-459). -/

/-- `value.strip().lower()`, the grouping key (line 413). -/
def normVal (v : Str) : Str := lowerStr (stripStr v)

/-- The candidates grouped under one normalized value (the
`value_groups[normalized_value]` list, in insertion order). -/
def candidatesFor (all : List PiiEntry) (key : Str) : List PiiEntry :=
  all.filter (fun e => normVal e.2 = key)

/-- Source attribution of one candidate (lines 434-440): membership is
tested against the full ChatGPT list first, then Presidio, else NER. -/
def srcOf (p c : List PiiEntry) (e : PiiEntry) : Nat :=
  if c.contains e then 2 else if p.contains e then 1 else 0

/-- `score = votes (+2 if ChatGPT) (+1 if Presidio)` (lines 444-450). -/
def labelScore (p c : List PiiEntry) (candidates : List PiiEntry) (l : Str) : Nat :=
  let withL := candidates.filter (fun e => e.1 = l)
  withL.length
    + (if withL.any (fun e => srcOf p c e = 2) then 2 else 0)
    + (if withL.any (fun e => srcOf p c e = 1) then 1 else 0)

/-- The `if score > best_score` selection fold (lines 441-453),
iterating labels in first-insertion order. -/
def bestLabelGo (scoreOf : Str → Nat) (best : Str × Nat) : List Str → Str × Nat
  | [] => best
  | l :: ls =>
      if scoreOf l > best.2 then bestLabelGo scoreOf (l, scoreOf l) ls
      else bestLabelGo scoreOf best ls

/-- Consensus pick for a multi-candidate group (lines 424-456). -/
def consensusPick (p c : List PiiEntry) (candidates : List PiiEntry) : PiiEntry :=
  let labels := dedupSeen [] (candidates.map Prod.fst)
  let best := (bestLabelGo (labelScore p c candidates) ([], 0) labels).1
  (best, ((candidates.filter (fun e => e.1 = best)).headD ([], [])).2)

/-- `combine_pii_results(presidio_results, ner_results, chatgpt_results)`
(lines 384-459). -/
def combinePiiResults (p n c : List PiiEntry) : List PiiEntry :=
  let all := p ++ n ++ c
  if all.isEmpty then []
  else
    let keys := dedupSeen [] (all.map (fun e => normVal e.2))
    keys.map (fun k =>
      let candidates := candidatesFor all k
      if candidates.length = 1 then candidates.headD ([], [])
      else consensusPick p c candidates)

/-! ## IoU and the image dedup loop

`iou` (`Encryption/Decryption` lines 8-31) and Step 5 of
`mask_sensitive_text` (lines 178-231).  Floats are modelled as exact
rationals. -/

/-- A point of an OCR polygon. -/
abbrev Pt := ℚ × ℚ

/-- An OCR bounding polygon (EasyOCR returns 4 points). -/
abbrev BBox := List Pt

/-- `min(xs)` for a nonempty list (Python `min` raises on `[]`; boxes
always have 4 points). -/
def listMinQ : List ℚ → ℚ
  | [] => 0
  | [x] => x
  | x :: y :: xs => min x (listMinQ (y :: xs))

/-- `max(xs)` for a nonempty list. -/
def listMaxQ : List ℚ → ℚ
  | [] => 0
  | [x] => x
  | x :: y :: xs => max x (listMaxQ (y :: xs))

/-- `min(p[0] for p in bbox)`. -/
def bXmin (b : BBox) : ℚ := listMinQ (b.map Prod.fst)

/-- `max(p[0] for p in bbox)`. -/
def bXmax (b : BBox) : ℚ := listMaxQ (b.map Prod.fst)

/-- `min(p[1] for p in bbox)`. -/
def bYmin (b : BBox) : ℚ := listMinQ (b.map Prod.snd)

/-- `max(p[1] for p in bbox)`. -/
def bYmax (b : BBox) : ℚ := listMaxQ (b.map Prod.snd)

/-- `inter_area` (line 27). -/
def interArea (b1 b2 : BBox) : ℚ :=
  (min (bXmax b1) (bXmax b2) - max (bXmin b1) (bXmin b2)) *
  (min (bYmax b1) (bYmax b2) - max (bYmin b1) (bYmin b2))

/-- `area1`/`area2` (lines 28-29). -/
def boxArea (b : BBox) : ℚ := (bXmax b - bXmin b) * (bYmax b - bYmin b)

/-- `union_area` (line 30). -/
def unionArea (b1 b2 : BBox) : ℚ :=
  boxArea b1 + boxArea b2 - interArea b1 b2

/-- `iou(bbox1, bbox2)` (lines 8-31): axis-aligned IoU with an early
return of `0.0` when the intersection rectangle is empty. -/
def iou (b1 b2 : BBox) : ℚ :=
  if max (bXmin b1) (bXmin b2) ≥ min (bXmax b1) (bXmax b2) ∨
     max (bYmin b1) (bYmin b2) ≥ min (bYmax b1) (bYmax b2) then 0
  else interArea b1 b2 / unionArea b1 b2

/-- One OCR fragment `(bbox, text, confidence)`. -/
structure OcrResult where
  bbox : BBox
  text : Str
  confidence : ℚ
deriving DecidableEq, Repr

/-- The keyword match of Step 5 (lines 182-190): a fragment is a masking
candidate iff some keyword contains-insensitively occurs in it (the
prefix/suffix branch only executes `pass`). -/
def keywordMatched (keywords : List Str) (text : Str) : Bool :=
  keywords.any (fun kw => strContains (lowerStr text) (lowerStr kw))

/-- The Step 5 masking loop (lines 180-231), returning the fragments
that produce a masked region and an `ImageRegionRecord`; `seen` is the
dedup list.  (`cv2.imencode` is modelled as always succeeding.) -/
def imageMaskLoop (keywords : List Str) (seen : List OcrResult) :
    List OcrResult → List OcrResult
  | [] => []
  | f :: rest =>
      if ¬ (keywordMatched keywords f.text = true) then imageMaskLoop keywords seen rest
      else if shouldIgnoreWord f.text IGNORE_WORDS_IMAGE then imageMaskLoop keywords seen rest
      else if seen.any (fun s => iou f.bbox s.bbox > 85/100 ∧ lowerStr f.text = lowerStr s.text) then
        imageMaskLoop keywords seen rest
      else f :: imageMaskLoop keywords (seen ++ [f]) rest

/-- Python `int()` truncation toward zero, applied to polygon
coordinates (line 211-212). -/
def truncToInt (q : ℚ) : ℤ := Int.tdiv q.num (q.den : ℤ)

/-- The bbox stored in the `ImageRegionRecord`
(line 228): `[[x_min, y_min], [x_max, y_min], [x_max, y_max],
[x_min, y_max]]` of the truncated polygon extremes — stored as computed,
with no clamping to the image bounds. -/
def storedBbox (b : BBox) : List (ℤ × ℤ) :=
  let xs := b.map (fun p => truncToInt p.1)
  let ys := b.map (fun p => truncToInt p.2)
  let xmin := xs.foldr min (xs.headD 0)
  let xmax := xs.foldr max (xs.headD 0)
  let ymin := ys.foldr min (ys.headD 0)
  let ymax := ys.foldr max (ys.headD 0)
  [(xmin, ymin), (xmax, ymin), (xmax, ymax), (xmin, ymax)]

/-- The bboxes of all records written by the Step 5 loop. -/
def imageRecordBboxes (keywords : List Str) (results : List OcrResult) :
    List (List (ℤ × ℤ)) :=
  (imageMaskLoop keywords [] results).map (fun f => storedBbox f.bbox)

/-- The rectangle extremes recomputed from a stored bbox at restore time
(decrypt_jpeg.py lines 39-42). -/
def rectOfStored (bbox : List (ℤ × ℤ)) : ℤ × ℤ × ℤ × ℤ :=
  let xs := bbox.map Prod.fst
  let ys := bbox.map Prod.snd
  (xs.foldr min (xs.headD 0), ys.foldr min (ys.headD 0),
   xs.foldr max (xs.headD 0), ys.foldr max (ys.headD 0))

/-- The restore-time clamp (decrypt_jpeg.py lines 46-50):
`x_min = max(0, x_min); y_min = max(0, y_min);
x_max = min(image.shape[1], x_max); y_max = min(image.shape[0], y_max)`. -/
def clampRect (w h : ℤ) (r : ℤ × ℤ × ℤ × ℤ) : ℤ × ℤ × ℤ × ℤ :=
  (max 0 r.1, max 0 r.2.1, min w r.2.2.1, min h r.2.2.2)

/-! ## Multi-page restore

`decrypt_masked_pdf` (app/services/decrypt_pdf.py lines 31-51). -/

/-- One entry of a (possibly multi-page) image mapping file;
`pageNumber = none` models the absence of the `page_number` key
(the legacy format). -/
structure ImageEntry where
  cipher : Str
  bbox : List (ℤ × ℤ)
  confidence : ℚ
  originalImageBase64 : Str
  pageNumber : Option Nat
deriving DecidableEq, Repr

/-- `has_page_info = any('page_number' in entry for entry in ...)`
(line 33). -/
def hasPageInfo (entries : List ImageEntry) : Bool :=
  entries.any (fun e => e.pageNumber.isSome)

/-- The data assigned to page `p` (lines 35-48 and 71): in the new
format, entries are grouped by `entry.get('page_number', 1)`; in the
legacy format the whole list is stored under page 1
(`pages_data[1] = all_encrypted_data`) and every other page gets
`pages_data.get(page_number, [])`, i.e. nothing. -/
def pagesDataFor (entries : List ImageEntry) (p : Nat) : List ImageEntry :=
  if hasPageInfo entries then entries.filter (fun e => e.pageNumber.getD 1 = p)
  else if p = 1 then entries else []

/-! ## Concrete inputs used by counterexamples and witnesses -/

/-- A legacy mapping entry (no `page_number` key). -/
def legacyEntry : ImageEntry :=
  ⟨str "cipher0", [(0, 0), (1, 0), (1, 1), (0, 1)], 9/10, str "patch0", none⟩

/-- Box with x-range `[0, 100]`, y-range `[0, 10]`. -/
def boxZ7 : BBox := [(0, 0), (100, 0), (100, 10), (0, 10)]

/-- Box with x-range `[0, 109]`: IoU with `boxZ7` is `100/109 > 0.85`. -/
def boxA7 : BBox := [(0, 0), (109, 0), (109, 10), (0, 10)]

/-- Box with x-range `[0, 119]`: IoU with `boxA7` is `109/119 > 0.85`,
but IoU with `boxZ7` is `100/119 < 0.85`. -/
def boxB7 : BBox := [(0, 0), (119, 0), (119, 10), (0, 10)]

/-- OCR fragment on `boxZ7`. -/
def fragZ7 : OcrResult := ⟨boxZ7, str "John", 9/10⟩

/-- OCR fragment on `boxA7`, same text as `fragZ7`. -/
def fragA7 : OcrResult := ⟨boxA7, str "John", 9/10⟩

/-- OCR fragment on `boxB7`, same text again. -/
def fragB7 : OcrResult := ⟨boxB7, str "John", 9/10⟩

/-- An OCR fragment whose polygon extends outside the image (negative
coordinates). -/
def fragOut9 : OcrResult :=
  ⟨[((-5 : ℚ), (-2 : ℚ)), (10, -2), (10, 7), (-5, 7)], str "John", 9/10⟩

/-! ## Proof model for the masking/restore round trip

The masked text is modelled as an alternation
`r0, (v1,t1), r1, (v2,t2), r2, ...` of raw document segments and
inserted tags; `MaskState` is that alternation, `renderMS` its visible
text, `renderOrigMS` the text with every inserted tag replaced by the
value it stands for.  The decomposition functions below mirror the
scanners `replaceAllGo`/`replaceDigitWBGo` but return the list of
non-replaced pieces instead of the rewritten string. -/

/-- `pat` occurs as a contiguous substring. -/
def Occurs (pat s : Str) : Prop := ∃ a b, s = a ++ pat ++ b

/-- A raw segment: contains no `[ENC:`. -/
def RawOk (s : Str) : Prop := ¬ Occurs (str "[ENC:") s

/-- A well-formed rendered tag: `[ENC:` + nonempty bracket-free body + `]`. -/
def TagWF (t : Str) : Prop :=
  ∃ i : Str, t = str "[ENC:" ++ i ++ [']'] ∧ i ≠ [] ∧ ∀ c ∈ i, c ≠ ']' ∧ c ≠ '['

/-- Prepend a character to the first piece. -/
def consHead (c : Char) : List Str → List Str
  | [] => [[c]]
  | p :: ps => (c :: p) :: ps

/-- Piece decomposition of the `replaceAllGo` scan: the segments between
the replaced occurrences. -/
def splitOnGo (pat : Str) : Nat → Str → List Str
  | 0, s => [s]
  | _ + 1, [] => [[]]
  | n + 1, c :: cs =>
      if pat.isPrefixOf (c :: cs) ∧ pat ≠ [] then
        [] :: splitOnGo pat n ((c :: cs).drop pat.length)
      else consHead c (splitOnGo pat n cs)

/-- Piece decomposition of the `replaceDigitWBGo` scan. -/
def splitWBGo (d : Char) : Bool → Str → List Str
  | _, [] => [[]]
  | prevW, c :: cs =>
      if c = d ∧ prevW = false ∧ ¬ (isWordChar (cs.headD ' ') = true) then
        [] :: splitWBGo d true cs
      else consHead c (splitWBGo d (isWordChar c) cs)

/-- Piece decomposition of `substituteValue v · r`. -/
def subSplit (v r : Str) : List Str :=
  if v.length = 1 ∧ isDigitChar (v.headD ' ') = true then
    splitWBGo (v.headD ' ') false r
  else splitOnGo v r.length r

/-- The masked-text model: a leading raw segment followed by
`(inserted-(value, tag), raw)` groups. -/
abbrev MaskState := Str × List ((Str × Str) × Str)

/-- The visible masked text of a state. -/
def renderMS (m : MaskState) : Str :=
  m.1 ++ (m.2.map (fun p => p.1.2 ++ p.2)).flatten

/-- The state's text with every inserted tag replaced by its value. -/
def renderOrigMS (m : MaskState) : Str :=
  m.1 ++ (m.2.map (fun p => p.1.1 ++ p.2)).flatten

/-- The effect of one substitution pass on one raw segment: head piece
plus `(value, tag)`-prefixed remaining pieces. -/
def spliceSub (v t r : Str) : Str × List ((Str × Str) × Str) :=
  match subSplit v r with
  | [] => (r, [])
  | p :: ps => (p, ps.map (fun q => ((v, t), q)))

/-- The effect of one substitution pass on the whole state. -/
def passMS (v t : Str) (m : MaskState) : MaskState :=
  ((spliceSub v t m.1).1,
   (spliceSub v t m.1).2 ++
     m.2.flatMap (fun p => ((p.1, (spliceSub v t p.2).1) :: (spliceSub v t p.2).2)))

/-- Resolving one tag during restore: groups whose tag equals `t0`
dissolve into raw text `v0 ++ r`, merged into the preceding raw
segment; the first component is the text to append to the preceding raw
segment, the second the surviving groups. -/
def resolvePairs (t0 v0 : Str) : List ((Str × Str) × Str) → Str × List ((Str × Str) × Str)
  | [] => ([], [])
  | (vt, r) :: rest =>
      if vt.2 = t0 then
        (v0 ++ r ++ (resolvePairs t0 v0 rest).1, (resolvePairs t0 v0 rest).2)
      else
        ([], (vt, r ++ (resolvePairs t0 v0 rest).1) :: (resolvePairs t0 v0 rest).2)

/-- One restore step on the state. -/
def resolveMS (t0 v0 : Str) (m : MaskState) : MaskState :=
  (m.1 ++ (resolvePairs t0 v0 m.2).1, (resolvePairs t0 v0 m.2).2)

/-! # Theorems -/

/-! ### Claim C10: IoU totality and range -/

/-- C10: for every pair of boxes, `iou` lies in `[0, 1]`, and whenever
the guard fails (so that the division `inter_area / union_area` is
actually reached) the denominator `union_area` — and both box areas —
are strictly positive, so no division by zero occurs. -/
theorem C10_iou_total_and_in_unit_range (b1 b2 : BBox) :
    0 ≤ iou b1 b2 ∧ iou b1 b2 ≤ 1 ∧
    (¬ (max (bXmin b1) (bXmin b2) ≥ min (bXmax b1) (bXmax b2) ∨
        max (bYmin b1) (bYmin b2) ≥ min (bYmax b1) (bYmax b2)) →
      0 < unionArea b1 b2 ∧ 0 < boxArea b1 ∧ 0 < boxArea b2) := by
  by_cases hg : (max (bXmin b1) (bXmin b2) ≥ min (bXmax b1) (bXmax b2) ∨
      max (bYmin b1) (bYmin b2) ≥ min (bYmax b1) (bYmax b2))
  · have h0 : iou b1 b2 = 0 := by unfold iou; rw [if_pos hg]
    exact ⟨by rw [h0], by rw [h0]; norm_num, fun h => absurd hg h⟩
  · push_neg at hg
    obtain ⟨hx, hy⟩ := hg
    have hwi : 0 < min (bXmax b1) (bXmax b2) - max (bXmin b1) (bXmin b2) := by linarith
    have hhi : 0 < min (bYmax b1) (bYmax b2) - max (bYmin b1) (bYmin b2) := by linarith
    have hw1 : min (bXmax b1) (bXmax b2) - max (bXmin b1) (bXmin b2) ≤ bXmax b1 - bXmin b1 := by
      have h1 := min_le_left (bXmax b1) (bXmax b2)
      have h2 := le_max_left (bXmin b1) (bXmin b2)
      linarith
    have hw2 : min (bXmax b1) (bXmax b2) - max (bXmin b1) (bXmin b2) ≤ bXmax b2 - bXmin b2 := by
      have h1 := min_le_right (bXmax b1) (bXmax b2)
      have h2 := le_max_right (bXmin b1) (bXmin b2)
      linarith
    have hh1 : min (bYmax b1) (bYmax b2) - max (bYmin b1) (bYmin b2) ≤ bYmax b1 - bYmin b1 := by
      have h1 := min_le_left (bYmax b1) (bYmax b2)
      have h2 := le_max_left (bYmin b1) (bYmin b2)
      linarith
    have hh2 : min (bYmax b1) (bYmax b2) - max (bYmin b1) (bYmin b2) ≤ bYmax b2 - bYmin b2 := by
      have h1 := min_le_right (bYmax b1) (bYmax b2)
      have h2 := le_max_right (bYmin b1) (bYmin b2)
      linarith
    have hipos : 0 < interArea b1 b2 := mul_pos hwi hhi
    have hia1 : interArea b1 b2 ≤ boxArea b1 :=
      mul_le_mul hw1 hh1 (le_of_lt hhi) (by linarith)
    have hia2 : interArea b1 b2 ≤ boxArea b2 :=
      mul_le_mul hw2 hh2 (le_of_lt hhi) (by linarith)
    have hupos : 0 < unionArea b1 b2 := by
      unfold unionArea; linarith
    have hiou : iou b1 b2 = interArea b1 b2 / unionArea b1 b2 := by
      unfold iou
      rw [if_neg]
      push_neg
      exact ⟨hx, hy⟩
    refine ⟨?_, ?_, fun _ => ⟨hupos, by linarith, by linarith⟩⟩
    · rw [hiou]; positivity
    · rw [hiou, div_le_one hupos]; unfold unionArea; linarith

/-- C10 witness: the theorem applied to the concrete boxes `boxZ7`,
`boxA7`, discharging the guard hypothesis there. -/
theorem C10_witness :
    0 ≤ iou boxZ7 boxA7 ∧ iou boxZ7 boxA7 ≤ 1 ∧ 0 < unionArea boxZ7 boxA7 :=
  ⟨(C10_iou_total_and_in_unit_range boxZ7 boxA7).1,
   (C10_iou_total_and_in_unit_range boxZ7 boxA7).2.1,
   ((C10_iou_total_and_in_unit_range boxZ7 boxA7).2.2 (by decide)).1⟩

/-! ### Claim C8: legacy multi-page restore -/

/-- C8: on a legacy mapping (no `page_number` on any entry),
`decrypt_masked_pdf` assigns the entire flat mapping to page 1 and
nothing to page 2 — contradicting its own log line
"Old format PDF - Applying all encrypted data to each page" and the
spec's "apply the entire flat mapping to every page". -/
theorem C8_legacy_mapping_applied_to_first_page_only :
    hasPageInfo [legacyEntry] = false ∧
    pagesDataFor [legacyEntry] 1 = [legacyEntry] ∧
    pagesDataFor [legacyEntry] 2 = [] := by
  refine ⟨rfl, ?_, ?_⟩ <;> simp [pagesDataFor, hasPageInfo, legacyEntry]

/-! ### Claim C9: bbox clamping invariant -/

/-- C9 counterexample: an OCR fragment whose polygon extends outside the
image produces an `ImageRegionRecord` whose stored bbox still has the
out-of-bounds coordinates `-5` and `-2`: no clamping happens before
storage (the clamping happens at restore time instead). -/
theorem C9_counterexample_unclamped_bbox_stored :
    imageRecordBboxes [str "john"] [fragOut9] =
      [[((-5 : ℤ), (-2 : ℤ)), (10, -2), (10, 7), (-5, 7)]] ∧
    ¬ (0 ≤ ((-5 : ℤ)) ) := by
  constructor
  · decide
  · decide

/-- C9 amended: the masker stores the raw truncated polygon extremes; it
is the restore engine (decrypt_jpeg.py lines 46-50) that clamps the
rectangle, and the clamped rectangle always satisfies
`0 ≤ x_min'`, `0 ≤ y_min'`, `x_max' ≤ width`, `y_max' ≤ height`. -/
theorem C9_amended_restore_clamps_to_bounds (w h : ℤ) (bbox : List (ℤ × ℤ)) :
    0 ≤ (clampRect w h (rectOfStored bbox)).1 ∧
    0 ≤ (clampRect w h (rectOfStored bbox)).2.1 ∧
    (clampRect w h (rectOfStored bbox)).2.2.1 ≤ w ∧
    (clampRect w h (rectOfStored bbox)).2.2.2 ≤ h := by
  refine ⟨le_max_left 0 _, le_max_left 0 _, min_le_left w _, min_le_left h _⟩

/-! ### Claim C5: ignore-word precision -/

/-- C5: the fragment text `"Kamal"` is not an ignore word and does not
tokenize into one, so whole-word matching (`_should_ignore_word`) keeps
it under both ignore sets; but the legacy OCR-stage check of `加密/解密`
(line 195) drops it, because the ignore word `"k"` is a substring of
`"kamal"` — exactly the substring false-negative the spec forbids. -/
theorem C5_legacy_substring_check_drops_kamal :
    legacyOcrIgnore (str "Kamal") = true ∧
    shouldIgnoreWord (str "Kamal") LEGACY_IGNORE_WORDS = false ∧
    shouldIgnoreWord (str "Kamal") IGNORE_WORDS_IMAGE = false := by
  refine ⟨?_, ?_, ?_⟩ <;> decide

/-! ### Shared list lemmas -/

/-- Elements of `dedupSeen seen l` come from `l`. -/
theorem mem_of_mem_dedupSeen {v : Str} :
    ∀ {l seen : List Str}, v ∈ dedupSeen seen l → v ∈ l := by
  intro l
  induction l with
  | nil => intro seen h; simp [dedupSeen] at h
  | cons x xs ih =>
      intro seen h
      unfold dedupSeen at h
      split at h
      · exact List.mem_cons_of_mem x (ih h)
      · rcases List.mem_cons.mp h with h1 | h1
        · exact h1 ▸ List.mem_cons_self x xs
        · exact List.mem_cons_of_mem x (ih h1)

/-- Elements of `dedupSeen seen l` are not in `seen`, and the result has
no duplicates. -/
theorem dedupSeen_nodup_and_fresh :
    ∀ (l seen : List Str),
      (∀ v ∈ dedupSeen seen l, ¬ v ∈ seen) ∧ (dedupSeen seen l).Nodup := by
  intro l
  induction l with
  | nil => intro seen; simp [dedupSeen]
  | cons x xs ih =>
      intro seen
      unfold dedupSeen
      split
      · exact ih seen
      · rename_i hx
        have hxseen : ¬ x ∈ seen := by simpa using hx
        constructor
        · intro v hv
          rcases List.mem_cons.mp hv with h1 | h1
          · subst h1; exact hxseen
          · have h2 := (ih (x :: seen)).1 v h1
            intro hmem; exact h2 (List.mem_cons_of_mem x hmem)
        · refine List.nodup_cons.mpr ⟨?_, (ih (x :: seen)).2⟩
          intro hmem
          exact (ih (x :: seen)).1 x hmem (List.mem_cons_self x seen)

/-- `headD` of a nonempty list is a member. -/
theorem headD_mem {α : Type _} {l : List α} (h : l ≠ []) (d : α) : l.headD d ∈ l := by
  cases l with
  | nil => exact absurd rfl h
  | cons a t => exact List.mem_cons_self a t

/-- The label chosen by the `if score > best_score` fold is the initial
one or comes from the iterated list. -/
theorem bestLabelGo_mem (scoreOf : Str → Nat) :
    ∀ (ls : List Str) (best : Str × Nat),
      (bestLabelGo scoreOf best ls).1 = best.1 ∨ (bestLabelGo scoreOf best ls).1 ∈ ls := by
  intro ls
  induction ls with
  | nil => intro best; exact Or.inl rfl
  | cons l ls ih =>
      intro best
      unfold bestLabelGo
      split
      · rcases ih (l, scoreOf l) with h | h
        · exact Or.inr (h ▸ List.mem_cons_self l ls)
        · exact Or.inr (List.mem_cons_of_mem l h)
      · rcases ih best with h | h
        · exact Or.inl h
        · exact Or.inr (List.mem_cons_of_mem l h)

/-- The `consensusPick` of a nonempty candidate group is an element of
the group. -/
theorem consensusPick_mem (p c : List PiiEntry) (candidates : List PiiEntry)
    (hne : candidates ≠ []) :
    ∃ e ∈ candidates, consensusPick p c candidates = (e.1, e.2) := by
  simp only [consensusPick]
  set labels := dedupSeen [] (candidates.map Prod.fst) with hlabels
  have hlne : labels ≠ [] := by
    cases hcand : candidates with
    | nil => exact absurd hcand hne
    | cons e es =>
        rw [hlabels, hcand]
        simp only [List.map_cons]
        unfold dedupSeen
        split
        · rename_i hfalse
          simp [List.contains] at hfalse
        · exact List.cons_ne_nil _ _
  set best := (bestLabelGo (labelScore p c candidates) ([], 0) labels).1 with hbest
  have hbmem : best ∈ labels := by
    cases hl : labels with
    | nil => exact absurd hl hlne
    | cons l0 ls =>
        have hscore : labelScore p c candidates l0 > 0 := by
          have hl0 : l0 ∈ candidates.map Prod.fst := by
            have : l0 ∈ labels := hl ▸ List.mem_cons_self l0 ls
            exact mem_of_mem_dedupSeen (hlabels ▸ this)
          obtain ⟨e, he, heq⟩ := List.mem_map.mp hl0
          have hmemf : e ∈ candidates.filter (fun e => decide (e.1 = l0)) := by
            rw [List.mem_filter]
            exact ⟨he, by simp [heq]⟩
          have hlen : 0 < (candidates.filter (fun e => decide (e.1 = l0))).length :=
            List.length_pos.mpr (List.ne_nil_of_mem hmemf)
          simp only [labelScore]
          split <;> split <;> omega
        rw [hbest, hl]
        unfold bestLabelGo
        rw [if_pos (by simpa using hscore)]
        rcases bestLabelGo_mem (labelScore p c candidates) ls (l0, labelScore p c candidates l0) with h | h
        · exact h ▸ List.mem_cons_self l0 ls
        · exact List.mem_cons_of_mem l0 h
  have hbf : best ∈ candidates.map Prod.fst := mem_of_mem_dedupSeen (hlabels ▸ hbmem)
  obtain ⟨e0, he0, he0eq⟩ := List.mem_map.mp hbf
  have hfne : candidates.filter (fun e => decide (e.1 = best)) ≠ [] := by
    refine List.ne_nil_of_mem (a := e0) ?_
    rw [List.mem_filter]
    exact ⟨he0, by simp [he0eq]⟩
  have hmem : (candidates.filter (fun e => decide (e.1 = best))).headD (([], []) : PiiEntry)
      ∈ candidates.filter (fun e => decide (e.1 = best)) := headD_mem hfne _
  have hmc := (List.mem_filter.mp hmem).1
  have hlab : ((candidates.filter (fun e => decide (e.1 = best))).headD (([], []) : PiiEntry)).1 = best := by
    have := (List.mem_filter.mp hmem).2
    simpa using this
  exact ⟨_, hmc, by rw [hlab]⟩

/-- The entry emitted for a key of the grouping dict has that key as its
normalized value. -/
theorem emitted_normVal_eq (p c : List PiiEntry) (all : List PiiEntry) (k : Str)
    (hk : ∃ e ∈ all, normVal e.2 = k) :
    normVal (if (candidatesFor all k).length = 1
        then (candidatesFor all k).headD (([], []) : PiiEntry)
        else consensusPick p c (candidatesFor all k)).2 = k := by
  obtain ⟨e, he, hek⟩ := hk
  have hne : candidatesFor all k ≠ [] := by
    refine List.ne_nil_of_mem (a := e) ?_
    unfold candidatesFor
    rw [List.mem_filter]
    exact ⟨he, by simp [hek]⟩
  have hval : ∀ x ∈ candidatesFor all k, normVal x.2 = k := by
    intro x hx
    unfold candidatesFor at hx
    have := (List.mem_filter.mp hx).2
    simpa using this
  split
  · exact hval _ (headD_mem hne _)
  · obtain ⟨e1, he1, heq⟩ := consensusPick_mem p c (candidatesFor all k) hne
    rw [heq]
    exact hval e1 he1

/-! ### Claim C6: consensus-merge guarantee -/

/-- C6 counterexample: the two Presidio/regex input lists
`[("A","v"), ("B","v")]` and `[("B","v"), ("A","v")]` are equal as
multisets of `(category, value)` candidates, but `combine_pii_results`
labels the merged entry `"A"` for the first and `"B"` for the second:
with tied scores, `if score > best_score` keeps the first-inserted label,
so the assigned category is NOT a function of the input multiset. -/
theorem C6_counterexample_tie_broken_by_order :
    (([(str "A", str "v"), (str "B", str "v")] : Multiset PiiEntry) =
      ([(str "B", str "v"), (str "A", str "v")] : Multiset PiiEntry)) ∧
    combinePiiResults [(str "A", str "v"), (str "B", str "v")] [] [] =
      [(str "A", str "v")] ∧
    combinePiiResults [(str "B", str "v"), (str "A", str "v")] [] [] =
      [(str "B", str "v")] := by
  refine ⟨by decide, by decide, by decide⟩

/-- C6 amended: the merged output has at most one entry per distinct
normalized (trimmed, lowercased) value — the mapped normalized values
are pairwise distinct.  The category choice is deterministic given the
three input lists (it is a function of them), label ties with equal
score being broken by first-insertion order, with the source-priority
bonuses (+2 ChatGPT, +1 Presidio/regex) applied before the comparison. -/
theorem C6_amended_at_most_one_entry_per_normalized_value
    (p n c : List PiiEntry) :
    ((combinePiiResults p n c).map (fun e => normVal e.2)).Nodup := by
  simp only [combinePiiResults]
  split
  · simp
  · rw [List.map_map]
    have hmap : ((dedupSeen [] ((p ++ n ++ c).map fun e => normVal e.2)).map
        ((fun e => normVal e.2) ∘ fun k =>
          if (candidatesFor (p ++ n ++ c) k).length = 1
          then (candidatesFor (p ++ n ++ c) k).headD (([], []) : PiiEntry)
          else consensusPick p c (candidatesFor (p ++ n ++ c) k))) =
        dedupSeen [] ((p ++ n ++ c).map fun e => normVal e.2) := by
      have h1 : ∀ k ∈ dedupSeen [] ((p ++ n ++ c).map fun e => normVal e.2),
          ((fun e : PiiEntry => normVal e.2) ∘ fun k =>
            if (candidatesFor (p ++ n ++ c) k).length = 1
            then (candidatesFor (p ++ n ++ c) k).headD (([], []) : PiiEntry)
            else consensusPick p c (candidatesFor (p ++ n ++ c) k)) k = id k := by
        intro k hk
        simp only [Function.comp, id]
        refine emitted_normVal_eq p c (p ++ n ++ c) k ?_
        have hk2 := mem_of_mem_dedupSeen hk
        obtain ⟨e, he, hek⟩ := List.mem_map.mp hk2
        exact ⟨e, he, hek⟩
      exact (List.map_congr_left h1).trans (List.map_id _)
    rw [hmap]
    exact (dedupSeen_nodup_and_fresh _ []).2

/-! ### Claim C7: image-region dedup -/

/-- `inter_area` is symmetric. -/
theorem interArea_comm (b1 b2 : BBox) : interArea b1 b2 = interArea b2 b1 := by
  unfold interArea
  rw [max_comm (bXmin b1) (bXmin b2), min_comm (bXmax b1) (bXmax b2),
      max_comm (bYmin b1) (bYmin b2), min_comm (bYmax b1) (bYmax b2)]

/-- `union_area` is symmetric. -/
theorem unionArea_comm (b1 b2 : BBox) : unionArea b1 b2 = unionArea b2 b1 := by
  unfold unionArea
  rw [interArea_comm b1 b2, add_comm (boxArea b1) (boxArea b2)]

/-- `iou` is symmetric in its two boxes. -/
theorem iou_comm (b1 b2 : BBox) : iou b1 b2 = iou b2 b1 := by
  unfold iou
  rw [max_comm (bXmin b1) (bXmin b2), min_comm (bXmax b1) (bXmax b2),
      max_comm (bYmin b1) (bYmin b2), min_comm (bYmax b1) (bYmax b2),
      interArea_comm b1 b2, unionArea_comm b1 b2]

/-- A fragment emitted by the Step 5 loop is never IoU-plus-text
duplicate of anything already in `seen`. -/
theorem imageMaskLoop_fresh (kw : List Str) :
    ∀ (results : List OcrResult) (seen : List OcrResult),
      ∀ g ∈ imageMaskLoop kw seen results, ∀ s ∈ seen,
        ¬ (iou g.bbox s.bbox > 85/100 ∧ lowerStr g.text = lowerStr s.text) := by
  intro results
  induction results with
  | nil => intro seen g hg; simp [imageMaskLoop] at hg
  | cons f rest ih =>
      intro seen g hg s hs
      unfold imageMaskLoop at hg
      split at hg
      · exact ih seen g hg s hs
      · split at hg
        · exact ih seen g hg s hs
        · split at hg
          · exact ih seen g hg s hs
          · rename_i hnm hni hnd
            rcases List.mem_cons.mp hg with h1 | h1
            · subst h1
              intro hdup
              apply hnd
              rw [List.any_eq_true]
              exact ⟨s, hs, by simpa using hdup⟩
            · exact ih (seen ++ [f]) g h1 s (List.mem_append_left _ hs)

/-- C7 amended: among the regions emitted by one run of the Step 5 loop,
any two with IoU above `0.85` and case-insensitively equal text are the
same record — i.e. at most one `ImageRegionRecord` is produced for each
such near-coincident pair; when the earlier fragment of a pair is
recorded, the later one is skipped.  (Which representative survives is
"first seen against the current `seen` list": as the counterexample
shows, chained overlaps can make a later fragment the survivor.) -/
theorem C7_amended_at_most_one_record_per_overlapping_pair
    (kw : List Str) (results : List OcrResult) (f g : OcrResult)
    (hf : f ∈ imageMaskLoop kw [] results)
    (hg : g ∈ imageMaskLoop kw [] results)
    (hiou : iou f.bbox g.bbox > 85/100)
    (htext : lowerStr f.text = lowerStr g.text) : f = g := by
  have main : ∀ (rs : List OcrResult) (seen : List OcrResult),
      f ∈ imageMaskLoop kw seen rs → g ∈ imageMaskLoop kw seen rs → f = g := by
    intro rs
    induction rs with
    | nil => intro seen hf' _; simp [imageMaskLoop] at hf'
    | cons x rest ih =>
        intro seen hf' hg'
        unfold imageMaskLoop at hf' hg'
        by_cases h1 : ¬ (keywordMatched kw x.text = true)
        · rw [if_pos h1] at hf' hg'; exact ih seen hf' hg'
        · rw [if_neg h1] at hf' hg'
          by_cases h2 : shouldIgnoreWord x.text IGNORE_WORDS_IMAGE = true
          · rw [if_pos h2] at hf' hg'; exact ih seen hf' hg'
          · rw [if_neg h2] at hf' hg'
            by_cases h3 : (seen.any fun s =>
                decide (iou x.bbox s.bbox > 85 / 100 ∧ lowerStr x.text = lowerStr s.text)) = true
            · rw [if_pos h3] at hf' hg'; exact ih seen hf' hg'
            · rw [if_neg h3] at hf' hg'
              rcases List.mem_cons.mp hf' with h1 | h1 <;>
                rcases List.mem_cons.mp hg' with h2 | h2
              · exact h1.trans h2.symm
              · subst h1
                exfalso
                exact imageMaskLoop_fresh kw rest (seen ++ [f]) g h2 f
                  (List.mem_append_right _ (List.mem_cons_self f []))
                  ⟨by rwa [iou_comm], htext.symm⟩
              · subst h2
                exfalso
                exact imageMaskLoop_fresh kw rest (seen ++ [g]) f h1 g
                  (List.mem_append_right _ (List.mem_cons_self g []))
                  ⟨hiou, htext⟩
              · exact ih (seen ++ [x]) h1 h2
  exact main results [] hf hg

/-- The IoU of the overlapping pair `(fragA7, fragB7)` exceeds the 0.85
dedup threshold (it is `1090/1190 ≈ 0.916`). -/
theorem iou_fragA7_fragB7_above_threshold :
    iou fragA7.bbox fragB7.bbox > 85/100 := by
  simp only [fragA7, fragB7, iou, interArea, unionArea, boxArea, bXmin, bXmax,
    bYmin, bYmax, boxA7, boxB7, listMinQ, listMaxQ, List.map]
  norm_num [min_def, max_def]

/-- A box's IoU with itself exceeds the threshold (`iou fragZ7 fragZ7 = 1`). -/
theorem iou_fragZ7_self_above_threshold :
    iou fragZ7.bbox fragZ7.bbox > 85/100 := by
  simp only [fragZ7, iou, interArea, unionArea, boxArea, bXmin, bXmax,
    bYmin, bYmax, boxZ7, listMinQ, listMaxQ, List.map]
  norm_num [min_def, max_def]

/-- Concrete run of the Step 5 loop on the chained-overlap triple:
`fragZ7` is recorded, `fragA7` is suppressed as a duplicate of `fragZ7`
(IoU `1000/1090 ≈ 0.917`), and `fragB7` is recorded because its IoU with
the only `seen` entry `fragZ7` is `1000/1190 ≈ 0.840 ≤ 0.85`. -/
theorem imageMaskLoop_chain_run :
    imageMaskLoop [str "john"] [] [fragZ7, fragA7, fragB7] = [fragZ7, fragB7] := by
  have hkw : keywordMatched [str "john"] (str "John") = true := by decide
  have hig : shouldIgnoreWord (str "John") IGNORE_WORDS_IMAGE = false := by decide
  have hZA : iou boxA7 boxZ7 > 85/100 := by
    simp only [iou, interArea, unionArea, boxArea, bXmin, bXmax, bYmin, bYmax,
      boxA7, boxZ7, listMinQ, listMaxQ, List.map]
    norm_num [min_def, max_def]
  have hZB : ¬ (iou boxB7 boxZ7 > 85/100) := by
    simp only [iou, interArea, unionArea, boxArea, bXmin, bXmax, bYmin, bYmax,
      boxB7, boxZ7, listMinQ, listMaxQ, List.map]
    norm_num [min_def, max_def]
  simp [imageMaskLoop, fragZ7, fragA7, fragB7, hkw, hig, hZA, hZB]

/-- C7 witness: the amended theorem applied at the concrete run
`imageMaskLoop [john] [] [fragZ7, fragA7, fragB7]` with both fragments
instantiated to the emitted `fragZ7`, discharging every hypothesis. -/
theorem C7_witness : fragZ7 = fragZ7 :=
  C7_amended_at_most_one_record_per_overlapping_pair
    [str "john"] [fragZ7, fragA7, fragB7] fragZ7 fragZ7
    (by rw [imageMaskLoop_chain_run]; exact List.mem_cons_self _ _)
    (by rw [imageMaskLoop_chain_run]; exact List.mem_cons_self _ _)
    iou_fragZ7_self_above_threshold rfl

/-- C7 counterexample: in the run on `[fragZ7, fragA7, fragB7]` all three
fragments match the keyword, carry the same text, and
`iou(fragA7, fragB7) = 1090/1190 > 0.85`, yet the loop records `fragZ7`
and `fragB7`: the pair `(fragA7, fragB7)` has IoU > 0.85 and equal text,
but its FIRST-seen member `fragA7` does not survive (it was suppressed
as a duplicate of `fragZ7`, while `fragB7` has IoU `1000/1190 ≤ 0.85`
with `fragZ7` and is recorded), refuting "the first-seen fragment is the
one that survives" and leaving two records overlapping the span of
`fragA7`. -/
theorem C7_counterexample_first_seen_does_not_survive :
    iou fragA7.bbox fragB7.bbox > 85/100 ∧
    lowerStr fragA7.text = lowerStr fragB7.text ∧
    keywordMatched [str "john"] fragA7.text = true ∧
    shouldIgnoreWord fragA7.text IGNORE_WORDS_IMAGE = false ∧
    imageMaskLoop [str "john"] [] [fragZ7, fragA7, fragB7] = [fragZ7, fragB7] :=
  ⟨iou_fragA7_fragB7_above_threshold, rfl, by decide, by decide,
   imageMaskLoop_chain_run⟩

/-! ### Claim C4: category gating -/

/-- The category-filter loop as a map-and-filter: an entry survives iff
its stripped value is nonempty, not an ignore word, and its label is
either non-selectable or enabled. -/
theorem filterPii_eq_filter_map (enabled : List Str) (pii : List PiiEntry) :
    filterPii enabled pii =
      (pii.map (fun e => (e.1, stripStr e.2))).filter
        (fun e => !(e.2.isEmpty) &&
          !(shouldIgnoreWord (lowerStr e.2) IGNORE_WORDS_IMAGE) &&
          (!(SELECTABLE_CATEGORIES.contains e.1) || enabled.contains e.1)) := by
  induction pii with
  | nil => rfl
  | cons e rest ih =>
      obtain ⟨l0, v0⟩ := e
      simp only [filterPii, List.map_cons, List.filter_cons]
      by_cases h1 : stripStr v0 = []
      · rw [if_pos h1, ih]
        have : (stripStr v0).isEmpty = true := by simp [h1]
        simp [this]
      · rw [if_neg h1]
        have h1e : (stripStr v0).isEmpty = false := by
          simpa [List.isEmpty_iff] using h1
        by_cases h2 : shouldIgnoreWord (lowerStr (stripStr v0)) IGNORE_WORDS_IMAGE = true
        · rw [if_pos h2, ih]
          simp [h1e, h2]
        · rw [if_neg h2]
          have h2f : shouldIgnoreWord (lowerStr (stripStr v0)) IGNORE_WORDS_IMAGE = false :=
            Bool.of_not_eq_true h2
          by_cases h3 : SELECTABLE_CATEGORIES.contains l0 = true
          · rw [if_pos h3]
            have h3m : l0 ∈ SELECTABLE_CATEGORIES := by simpa using h3
            by_cases h4 : enabled.contains l0 = true
            · rw [if_pos h4, ih]
              have h4m : l0 ∈ enabled := by simpa using h4
              simp [h1e, h2f, h3m, h4m]
            · rw [if_neg h4, ih]
              have h4m : l0 ∉ enabled := by simpa using h4
              simp [h1e, h2f, h3m, h4m]
          · rw [if_neg h3, ih]
            have h3m : l0 ∉ SELECTABLE_CATEGORIES := by simpa using h3
            simp [h1e, h2f, h3m]

/-- C4 counterexample: with the empty enabled-category set, the personal
name `"Ahmad"` carrying the NER label `"PER"` (the label that
`extract_all_pii` attaches to NER-detected person names) is RETAINED by
the category filter: `"PER"` is not one of the six selectable category
keys, so the filter treats it as always-on, refuting "every value
belonging to a selectable category (e.g. a personal name, regardless of
which detector produced it) is excluded". -/
theorem C4_counterexample_ner_name_retained_with_empty_enabled :
    filterPii [] [(str "PER", str "Ahmad")] = [(str "PER", str "Ahmad")] := by
  decide

/-- C4 amended: with `enabled_categories = {}`, an entry is in the
masked set iff its LABEL is outside the six selectable category keys
(`NAMES`, `RACES`, `ORG_NAMES`, `STATUS`, `LOCATIONS`, `RELIGIONS`) and
it survives the empty-value and ignore-word checks.  In particular every
always-on value (e.g. an `IC` number) is retained and every entry
labelled with a selectable key is dropped — but a personal name
detected by NER arrives with label `PER` and is retained. -/
theorem C4_amended_gating_is_by_label (pii : List PiiEntry) (l v : Str) :
    (l, v) ∈ filterPii [] pii ↔
      SELECTABLE_CATEGORIES.contains l = false ∧
      ∃ v0, (l, v0) ∈ pii ∧ v = stripStr v0 ∧ v ≠ [] ∧
        shouldIgnoreWord (lowerStr v) IGNORE_WORDS_IMAGE = false := by
  rw [filterPii_eq_filter_map]
  constructor
  · intro h
    have h1 := (List.mem_filter.mp h).1
    have h2 := (List.mem_filter.mp h).2
    obtain ⟨e0, he0, heq⟩ := List.mem_map.mp h1
    simp only [Bool.and_eq_true, Bool.or_eq_true, Bool.not_eq_true'] at h2
    obtain ⟨⟨hne, hig⟩, hsel⟩ := h2
    have hl : e0.1 = l := congrArg Prod.fst heq
    have hv : stripStr e0.2 = v := congrArg Prod.snd heq
    rcases hsel with hsel | hsel
    · refine ⟨hsel, e0.2, ?_, hv.symm, ?_, hig⟩
      · rw [← hl]; exact he0
      · simpa [List.isEmpty_iff] using hne
    · simp [List.contains] at hsel
  · rintro ⟨hsel, v0, hmem, hv, hne, hig⟩
    rw [List.mem_filter]
    constructor
    · exact List.mem_map.mpr ⟨(l, v0), hmem, by rw [← hv]⟩
    · simp only [Bool.and_eq_true, Bool.or_eq_true, Bool.not_eq_true']
      exact ⟨⟨by simpa [List.isEmpty_iff] using hne, hig⟩, Or.inl hsel⟩

/-! ### Claim C2: tag determinism and per-value single encryption -/

/-- Structure of the mapping-building loop, generalized over the
initial `seen` set and encryption-call counter: the recorded originals
are exactly the first-seen deduplication of the input values, the `i`-th
record is encrypted by the `(k+i)`-th (and only the `(k+i)`-th)
encryption call on its own original, and every record's tag is
`mkTag label original`, with the label of the first occurrence. -/
theorem buildMappingGo_spec (enc : Nat → Str → Str) :
    ∀ (pii : List PiiEntry) (seen : List Str) (k : Nat),
      ((buildMappingGo enc seen k pii).map MaskingRecord.original =
        dedupSeen seen (pii.map Prod.snd)) ∧
      (∀ i : Fin (buildMappingGo enc seen k pii).length,
        ((buildMappingGo enc seen k pii).get i).encrypted =
          enc (k + i) ((buildMappingGo enc seen k pii).get i).original) ∧
      (∀ r ∈ buildMappingGo enc seen k pii, r.masked = mkTag r.label r.original) := by
  intro pii
  induction pii with
  | nil =>
      intro seen k
      refine ⟨rfl, ?_, ?_⟩
      · intro i; exact absurd i.2 (by simp [buildMappingGo])
      · intro r hr; simp [buildMappingGo] at hr
  | cons e rest ih =>
      intro seen k
      obtain ⟨l, v⟩ := e
      by_cases hc : seen.contains v = true
      · have hcm : v ∈ seen := by simpa using hc
        have hb : buildMappingGo enc seen k ((l, v) :: rest) =
            buildMappingGo enc seen k rest := by
          simp [buildMappingGo, hcm]
        have hd : dedupSeen seen (((l, v) :: rest).map Prod.snd) =
            dedupSeen seen (rest.map Prod.snd) := by
          simp [dedupSeen, hcm]
        rw [hb, hd]
        exact ih seen k
      · have hcm : v ∉ seen := by simpa using hc
        have hb : buildMappingGo enc seen k ((l, v) :: rest) =
            ⟨v, enc k v, l, mkTag l v⟩ :: buildMappingGo enc (v :: seen) (k + 1) rest := by
          simp [buildMappingGo, hcm]
        have hd : dedupSeen seen (((l, v) :: rest).map Prod.snd) =
            v :: dedupSeen (v :: seen) (rest.map Prod.snd) := by
          simp [dedupSeen, hcm]
        rw [hb, hd]
        refine ⟨?_, ?_, ?_⟩
        · simp only [List.map_cons]
          rw [(ih (v :: seen) (k + 1)).1]
        · intro i
          match i with
          | ⟨0, _⟩ => simp
          | ⟨j + 1, hj⟩ =>
              have hj' : j < (buildMappingGo enc (v :: seen) (k + 1) rest).length := by
                simpa using hj
              have h2 := (ih (v :: seen) (k + 1)).2.1 ⟨j, hj'⟩
              simpa [Nat.add_assoc, Nat.add_comm 1 j] using h2
        · intro r hr
          rcases List.mem_cons.mp hr with h1 | h1
          · rw [h1]
          · exact (ih (v :: seen) (k + 1)).2.2 r h1

/-- C2: in one masking run (`process_text_optimized` lines 189-206, and
the identical loop of `process_csv_optimized` lines 119-138), each
distinct detected value yields exactly one `MaskingRecord` (the recorded
originals are the first-seen deduplication of the inputs and are
pairwise distinct), the `i`-th record's ciphertext comes from the single
`i`-th encryption call on that value (so each distinct value is
encrypted exactly once per run, whatever the — possibly randomized —
cipher `enc` returns), and every record's `masked` tag is the
deterministic `[ENC:{label}_{md5(value)[:8]}]` of its label and value —
so two occurrences of the same value in one run share one record and
hence one tag, even though a second encryption call could have produced
a different ciphertext. -/
theorem C2_tag_deterministic_and_one_encryption_per_value
    (enc : Nat → Str → Str) (pii : List PiiEntry) :
    ((buildMapping enc pii).map MaskingRecord.original =
      dedupSeen [] (pii.map Prod.snd)) ∧
    ((buildMapping enc pii).map MaskingRecord.original).Nodup ∧
    (∀ i : Fin (buildMapping enc pii).length,
      ((buildMapping enc pii).get i).encrypted =
        enc i ((buildMapping enc pii).get i).original) ∧
    (∀ r ∈ buildMapping enc pii, r.masked = mkTag r.label r.original) := by
  have h := buildMappingGo_spec enc pii [] 0
  have hb : buildMapping enc pii = buildMappingGo enc [] 0 pii := rfl
  rw [hb]
  refine ⟨h.1, ?_, ?_, h.2.2⟩
  · rw [h.1]; exact (dedupSeen_nodup_and_fresh _ []).2
  · intro i
    have := h.2.1 i
    simpa using this

/-! ### Basic string lemmas for the round-trip proofs -/

/-- `isPrefixOf` as an existential. -/
theorem isPrefixOf_iff_ex : ∀ (p s : Str), p.isPrefixOf s = true ↔ ∃ w, s = p ++ w := by
  intro p
  induction p with
  | nil => intro s; simp [List.isPrefixOf]
  | cons c p ih =>
      intro s
      cases s with
      | nil => simp [List.isPrefixOf]
      | cons b t =>
          simp only [List.isPrefixOf, Bool.and_eq_true, beq_iff_eq]
          rw [ih t]
          constructor
          · rintro ⟨h1, w, h2⟩; exact ⟨w, by simp [h1, h2]⟩
          · rintro ⟨w, h⟩
            injection h with h1 h2
            exact ⟨h1.symm, w, h2⟩

/-- Occurrence is monotone under embedding in a larger string. -/
theorem Occurs.mono {pat p s : Str} (h : Occurs pat p)
    (hinf : ∃ x y, s = x ++ p ++ y) : Occurs pat s := by
  obtain ⟨a, b, rfl⟩ := h
  obtain ⟨x, y, rfl⟩ := hinf
  exact ⟨x ++ a, b ++ y, by simp⟩

/-- A prefix occurrence. -/
theorem Occurs.of_isPrefixOf {pat s : Str} (h : pat.isPrefixOf s = true) :
    Occurs pat s := by
  obtain ⟨w, rfl⟩ := (isPrefixOf_iff_ex pat s).mp h
  exact ⟨[], w, rfl⟩

/-- `strContains` decides `Occurs`. -/
theorem strContains_iff_Occurs : ∀ (s pat : Str), strContains s pat = true ↔ Occurs pat s := by
  intro s
  induction s with
  | nil =>
      intro pat
      simp only [strContains, List.isEmpty_iff]
      constructor
      · rintro rfl; exact ⟨[], [], rfl⟩
      · rintro ⟨a, b, h⟩
        have hl := congrArg List.length h
        simp only [List.length_nil, List.length_append] at hl
        have hp : pat = [] := List.eq_nil_of_length_eq_zero (by omega)
        simp [hp]
  | cons c t ih =>
      intro pat
      simp only [strContains, Bool.or_eq_true]
      rw [ih pat]
      constructor
      · rintro (h | h)
        · exact Occurs.of_isPrefixOf h
        · exact h.mono ⟨[c], [], by simp⟩
      · rintro ⟨a, b, h⟩
        cases a with
        | nil =>
            left
            exact (isPrefixOf_iff_ex pat (c :: t)).mpr ⟨b, by simpa using h⟩
        | cons a0 a' =>
            right
            injection h with h1 h2
            exact ⟨a', b, h2⟩

/-- `RawOk` follows from being a factor of a `RawOk` string. -/
theorem RawOk.of_factor {s p : Str} (h : RawOk s) (hinf : ∃ x y, s = x ++ p ++ y) :
    RawOk p := fun hocc => h (hocc.mono hinf)

/-- `joinWith` over a `consHead`. -/
theorem joinWith_consHead (sep : Str) (c : Char) :
    ∀ ps : List Str, ps ≠ [] → joinWith sep (consHead c ps) = c :: joinWith sep ps := by
  intro ps hne
  cases ps with
  | nil => exact absurd rfl hne
  | cons p ps' =>
      cases ps' with
      | nil => rfl
      | cons q ps'' => rfl

/-- `joinWith` over a leading empty piece. -/
theorem joinWith_nil_cons (sep : Str) :
    ∀ ps : List Str, ps ≠ [] → joinWith sep ([] :: ps) = sep ++ joinWith sep ps := by
  intro ps hne
  cases ps with
  | nil => exact absurd rfl hne
  | cons p ps' => rfl

/-- `splitOnGo` never returns the empty list. -/
theorem splitOnGo_ne_nil (pat : Str) : ∀ (n : Nat) (s : Str), splitOnGo pat n s ≠ [] := by
  intro n
  induction n with
  | zero => intro s; simp [splitOnGo]
  | succ n ih =>
      intro s
      cases s with
      | nil => simp [splitOnGo]
      | cons c cs =>
          unfold splitOnGo
          split
          · simp
          · match h : splitOnGo pat n cs with
            | [] => exact absurd h (ih cs)
            | p :: ps => simp [consHead]

/-- `splitWBGo` never returns the empty list. -/
theorem splitWBGo_ne_nil (d : Char) : ∀ (pw : Bool) (s : Str), splitWBGo d pw s ≠ [] := by
  intro pw s
  induction s generalizing pw with
  | nil => simp [splitWBGo]
  | cons c cs ih =>
      unfold splitWBGo
      split
      · simp
      · match h : splitWBGo d (isWordChar c) cs with
        | [] => exact absurd h (ih (isWordChar c))
        | p :: ps => simp [consHead]

/-- The `replaceAllGo` scan rewrites the string to its pieces joined by
the replacement. -/
theorem replaceAllGo_eq_joinWith (pat rep : Str) :
    ∀ (n : Nat) (s : Str),
      replaceAllGo pat rep n s = joinWith rep (splitOnGo pat n s) := by
  intro n
  induction n with
  | zero => intro s; rfl
  | succ n ih =>
      intro s
      cases s with
      | nil => rfl
      | cons c cs =>
          unfold replaceAllGo splitOnGo
          split
          · rw [joinWith_nil_cons rep _ (splitOnGo_ne_nil pat n _), ih]
          · rw [joinWith_consHead rep c _ (splitOnGo_ne_nil pat n cs), ih]

/-- Joining the pieces with the pattern itself restores the string. -/
theorem joinWith_splitOnGo (pat : Str) :
    ∀ (n : Nat) (s : Str), joinWith pat (splitOnGo pat n s) = s := by
  intro n
  induction n with
  | zero => intro s; rfl
  | succ n ih =>
      intro s
      cases s with
      | nil => rfl
      | cons c cs =>
          unfold splitOnGo
          split
          · rename_i h
            rw [joinWith_nil_cons pat _ (splitOnGo_ne_nil pat n _), ih]
            obtain ⟨w, hw⟩ := (isPrefixOf_iff_ex pat (c :: cs)).mp h.1
            rw [hw]
            simp
          · rw [joinWith_consHead pat c _ (splitOnGo_ne_nil pat n cs), ih]

/-- The `replaceDigitWBGo` scan rewrites the string to its pieces joined
by the replacement. -/
theorem replaceDigitWBGo_eq_joinWith (d : Char) (rep : Str) :
    ∀ (s : Str) (pw : Bool),
      replaceDigitWBGo d rep pw s = joinWith rep (splitWBGo d pw s) := by
  intro s
  induction s with
  | nil => intro pw; rfl
  | cons c cs ih =>
      intro pw
      unfold replaceDigitWBGo splitWBGo
      split
      · rw [joinWith_nil_cons rep _ (splitWBGo_ne_nil d true cs), ih]
      · rw [joinWith_consHead rep c _ (splitWBGo_ne_nil d (isWordChar c) cs), ih]

/-- Joining word-boundary pieces with the digit restores the string. -/
theorem joinWith_splitWBGo (d : Char) :
    ∀ (s : Str) (pw : Bool), joinWith [d] (splitWBGo d pw s) = s := by
  intro s
  induction s with
  | nil => intro pw; rfl
  | cons c cs ih =>
      intro pw
      unfold splitWBGo
      split
      · rename_i h
        rw [joinWith_nil_cons [d] _ (splitWBGo_ne_nil d true cs), ih]
        simp [h.1]
      · rw [joinWith_consHead [d] c _ (splitWBGo_ne_nil d (isWordChar c) cs), ih]

/-- `subSplit` is never empty. -/
theorem subSplit_ne_nil (v r : Str) : subSplit v r ≠ [] := by
  unfold subSplit
  split
  · exact splitWBGo_ne_nil _ _ _
  · exact splitOnGo_ne_nil _ _ _

/-- `substituteValue` joins the pieces with the tag. -/
theorem substituteValue_eq_joinWith (v t r : Str) :
    substituteValue v t r = joinWith t (subSplit v r) := by
  unfold substituteValue subSplit
  split
  · exact replaceDigitWBGo_eq_joinWith _ _ _ _
  · exact replaceAllGo_eq_joinWith _ _ _ _

/-- Joining the pieces with the value itself restores the segment. -/
theorem joinWith_subSplit (v r : Str) : joinWith v (subSplit v r) = r := by
  unfold subSplit
  split
  · rename_i h
    have hv : v = [v.headD ' '] := by
      cases v with
      | nil => simp at h
      | cons c t =>
          cases t with
          | nil => rfl
          | cons b u => simp at h
    conv_lhs => rw [hv]
    exact joinWith_splitWBGo _ _ _
  · exact joinWith_splitOnGo _ _ _

/-- Fuel insensitivity of the `replaceAllGo` scan. -/
theorem replaceAllGo_fuel (pat rep : Str) :
    ∀ (n m : Nat) (s : Str), s.length ≤ n → s.length ≤ m →
      replaceAllGo pat rep n s = replaceAllGo pat rep m s := by
  intro n
  induction n with
  | zero =>
      intro m s hn _
      have : s = [] := List.eq_nil_of_length_eq_zero (Nat.le_zero.mp hn)
      subst this
      cases m <;> rfl
  | succ n ih =>
      intro m s hn hm
      cases s with
      | nil => cases m <;> rfl
      | cons c cs =>
          cases m with
          | zero => simp at hm
          | succ m =>
              unfold replaceAllGo
              split
              · rename_i h
                have hp : 1 ≤ pat.length :=
                  Nat.one_le_iff_ne_zero.mpr (fun h0 => h.2 (List.eq_nil_of_length_eq_zero h0))
                have hd : ((c :: cs).drop pat.length).length = cs.length + 1 - pat.length := by
                  rw [List.length_drop]; simp
                have hcl : (c :: cs).length = cs.length + 1 := by simp
                rw [hcl] at hn hm
                have hlen : ((c :: cs).drop pat.length).length ≤ n := by omega
                have hlen2 : ((c :: cs).drop pat.length).length ≤ m := by omega
                rw [ih m _ hlen hlen2]
              · have hcl : (c :: cs).length = cs.length + 1 := by simp
                rw [hcl] at hn hm
                rw [ih m cs (by omega) (by omega)]

/-- Unfolding: replacing in `[]`. -/
theorem replaceAll_nil (pat rep : Str) : replaceAll pat rep [] = [] := rfl

/-- One-step unfolding of the scanner. -/
theorem replaceAllGo_succ_cons (pat rep : Str) (n : Nat) (c : Char) (cs : Str) :
    replaceAllGo pat rep (n + 1) (c :: cs) =
      if pat.isPrefixOf (c :: cs) = true ∧ pat ≠ [] then
        rep ++ replaceAllGo pat rep n ((c :: cs).drop pat.length)
      else c :: replaceAllGo pat rep n cs := rfl

/-- Unfolding: a non-match position emits one character. -/
theorem replaceAll_cons_no_match (pat rep : Str) (c : Char) (cs : Str)
    (h : ¬ (pat.isPrefixOf (c :: cs) = true ∧ pat ≠ [])) :
    replaceAll pat rep (c :: cs) = c :: replaceAll pat rep cs := by
  show replaceAllGo pat rep (c :: cs).length (c :: cs) = _
  rw [show (c :: cs).length = cs.length + 1 from rfl, replaceAllGo_succ_cons,
    if_neg h]
  rfl

/-- Unfolding: a match consumes the pattern. -/
theorem replaceAll_match (pat rep w : Str) (hne : pat ≠ []) :
    replaceAll pat rep (pat ++ w) = rep ++ replaceAll pat rep w := by
  obtain ⟨c, p', hp⟩ : ∃ c p', pat = c :: p' := by
    cases pat with
    | nil => exact absurd rfl hne
    | cons a b => exact ⟨a, b, rfl⟩
  have hcons : pat ++ w = c :: (p' ++ w) := by rw [hp]; rfl
  have hlen : (pat ++ w).length = (p' ++ w).length + 1 := by
    rw [hcons]; rfl
  show replaceAllGo pat rep (pat ++ w).length (pat ++ w) = _
  rw [hlen, hcons, replaceAllGo_succ_cons,
    if_pos ⟨by rw [← hcons]; exact (isPrefixOf_iff_ex pat (pat ++ w)).mpr ⟨w, rfl⟩, hne⟩]
  have hdrop : (c :: (p' ++ w)).drop pat.length = w := by
    rw [← hcons, List.drop_left]
  rw [hdrop]
  congr 1
  apply replaceAllGo_fuel
  · simp
  · exact Nat.le_refl _

/-- Skip lemma: if no match can start inside `a`, the scan copies `a`. -/
theorem replaceAll_append_of_no_match (pat rep : Str) :
    ∀ (a w : Str),
      (∀ u, u ≠ [] → (∃ x, x ++ u = a) → ¬ pat.isPrefixOf (u ++ w) = true) →
      replaceAll pat rep (a ++ w) = a ++ replaceAll pat rep w := by
  intro a
  induction a with
  | nil => intro w _; rfl
  | cons c a' ih =>
      intro w h
      have hstep : replaceAll pat rep (c :: (a' ++ w)) = c :: replaceAll pat rep (a' ++ w) := by
        apply replaceAll_cons_no_match
        rintro ⟨hpre, -⟩
        exact h (c :: a') (by simp) ⟨[], rfl⟩ (by simpa using hpre)
      calc replaceAll pat rep ((c :: a') ++ w)
          = c :: replaceAll pat rep (a' ++ w) := hstep
        _ = c :: (a' ++ replaceAll pat rep w) := by
              rw [ih w (fun u hu ⟨x, hx⟩ => h u hu ⟨c :: x, by rw [← hx]; rfl⟩)]
        _ = (c :: a') ++ replaceAll pat rep w := rfl

/-- Identity lemma: if no match can start anywhere, the scan is the
identity. -/
theorem replaceAll_id_of_no_match (pat rep : Str) (a : Str)
    (h : ∀ u, u ≠ [] → (∃ x, x ++ u = a) → ¬ pat.isPrefixOf u = true) :
    replaceAll pat rep a = a := by
  have := replaceAll_append_of_no_match pat rep a []
    (fun u hu hx => by simpa using h u hu hx)
  simpa [replaceAll_nil] using this

/-- A suffix of a string without `[ENC:` cannot begin a tag-shaped
pattern even when continued by text starting with `[`. -/
theorem no_tag_start_in_raw {r w : Str} (hr : RawOk r)
    (hw : ∃ w', w = '[' :: w') :
    ∀ u, u ≠ [] → (∃ x, x ++ u = r) → ¬ (str "[ENC:").isPrefixOf (u ++ w) = true := by
  rintro u hu ⟨x, hx⟩ hpre
  obtain ⟨w', rfl⟩ := hw
  obtain ⟨z, hz⟩ := (isPrefixOf_iff_ex _ _).mp hpre
  by_cases hlen : 5 ≤ u.length
  · -- the whole pattern fits inside u, so `[ENC:` occurs in r
    apply hr
    have hu5 : u.take 5 = str "[ENC:" := by
      have h5 := congrArg (List.take 5) hz
      rw [List.take_append_of_le_length hlen] at h5
      have hr5 : (str "[ENC:" ++ z).take 5 = str "[ENC:" := by
        rw [List.take_append_of_le_length (by decide)]
        decide
      rw [hr5] at h5
      exact h5
    refine ⟨x, u.drop 5, ?_⟩
    rw [← hx, ← hu5]
    simp
  · -- u is a short nonempty prefix of `[ENC:`, and the continuation
    -- character is `[`, which never occurs at positions 1-4 of `[ENC:`
    push_neg at hlen
    have hchar : (u ++ '[' :: w').get? u.length = some '[' := by
      rw [List.get?_append_right (Nat.le_refl _)]
      simp
    have hchar2 : (str "[ENC:" ++ z).get? u.length = some '[' := by
      rw [← hz]; exact hchar
    have hlt : u.length < (str "[ENC:").length := by simpa using hlen
    rw [List.get?_append hlt] at hchar2
    have hpos : 1 ≤ u.length := by
      cases u with
      | nil => exact absurd rfl hu
      | cons _ _ => simp
    interval_cases h : u.length <;> simp_all [str]

/-- `renderMS` on an empty tail. -/
theorem renderMS_nil (r0 : Str) : renderMS (r0, []) = r0 := by
  simp [renderMS]

/-- `renderMS` unfolding one group. -/
theorem renderMS_cons (r0 : Str) (vt : Str × Str) (r1 : Str)
    (rest : List ((Str × Str) × Str)) :
    renderMS (r0, (vt, r1) :: rest) = r0 ++ (vt.2 ++ renderMS (r1, rest)) := by
  simp [renderMS]

/-- `renderOrigMS` on an empty tail. -/
theorem renderOrigMS_nil (r0 : Str) : renderOrigMS (r0, []) = r0 := by
  simp [renderOrigMS]

/-- `renderOrigMS` unfolding one group. -/
theorem renderOrigMS_cons (r0 : Str) (vt : Str × Str) (r1 : Str)
    (rest : List ((Str × Str) × Str)) :
    renderOrigMS (r0, (vt, r1) :: rest) = r0 ++ (vt.1 ++ renderOrigMS (r1, rest)) := by
  simp [renderOrigMS]

/-- `takeWhile` passes over a block that satisfies the predicate. -/
theorem takeWhile_append_of_all {p : Char → Bool} :
    ∀ {l1 l2 : Str}, (∀ c ∈ l1, p c = true) →
      (l1 ++ l2).takeWhile p = l1 ++ l2.takeWhile p := by
  intro l1
  induction l1 with
  | nil => intro l2 _; rfl
  | cons c t ih =>
      intro l2 h
      have hc : p c = true := h c (List.mem_cons_self c t)
      simp only [List.cons_append, List.takeWhile_cons, hc]
      rw [ih (fun d hd => h d (List.mem_cons_of_mem c hd))]
      simp

/-- A well-formed tag at the head of the text is matched exactly. -/
theorem tryTag_tag (t z : Str) (ht : TagWF t) : tryTag (t ++ z) = some (t, z) := by
  obtain ⟨i, rfl, hne, hch⟩ := ht
  have hdrop5 : ((str "[ENC:" ++ i ++ [']']) ++ z).drop 5 = i ++ ']' :: z := by
    have h0 : (str "[ENC:" ++ i ++ [']']) ++ z = str "[ENC:" ++ (i ++ ']' :: z) := by simp
    rw [h0, show (5 : Nat) = (str "[ENC:").length from rfl, List.drop_left]
  have htake : (i ++ ']' :: z).takeWhile (fun c => c ≠ ']') = i := by
    rw [takeWhile_append_of_all (fun c hc => by simpa using (hch c hc).1)]
    simp [List.takeWhile_cons]
  have hdropi : (i ++ ']' :: z).drop i.length = ']' :: z := List.drop_left i (']' :: z)
  unfold tryTag
  rw [if_pos ((isPrefixOf_iff_ex _ _).mpr ⟨i ++ ']' :: z, by simp⟩)]
  simp only [hdrop5, htake, hdropi, hne]
  simp [hne]

/-- `tryTag` fails when the tag-opening literal is not a prefix. -/
theorem tryTag_none_of_no_pre {s : Str}
    (h : ¬ (str "[ENC:").isPrefixOf s = true) : tryTag s = none := by
  unfold tryTag
  rw [if_neg h]

/-- `findTag` on raw text followed by a well-formed tag returns exactly
the split at that tag. -/
theorem findTag_raw_tag :
    ∀ (r0 : Str) (t z : Str), RawOk r0 → TagWF t →
      findTag (r0 ++ (t ++ z)) = some (r0, t, z) := by
  intro r0
  induction r0 with
  | nil =>
      intro t z _ ht
      obtain ⟨i, hteq, hne, hch⟩ := ht
      have hcons : t ++ z = '[' :: (str "ENC:" ++ i ++ ']' :: z) := by
        rw [hteq]; simp [str]
      rw [List.nil_append, hcons]
      unfold findTag
      rw [← hcons, tryTag_tag t z ⟨i, hteq, hne, hch⟩]
  | cons c r0' ih =>
      intro t z hr ht
      have hcons : (c :: r0') ++ (t ++ z) = c :: (r0' ++ (t ++ z)) := rfl
      rw [hcons]
      unfold findTag
      have hw : ∃ w', t ++ z = '[' :: w' := by
        obtain ⟨i, hteq, -, -⟩ := ht
        exact ⟨str "ENC:" ++ i ++ ']' :: z, by rw [hteq]; simp [str]⟩
      have htry : tryTag (c :: (r0' ++ (t ++ z))) = none := by
        apply tryTag_none_of_no_pre
        have := no_tag_start_in_raw hr hw (c :: r0') (by simp) ⟨[], rfl⟩
        simpa using this
      rw [htry]
      have hr0' : RawOk r0' := hr.of_factor ⟨[c], [], by simp⟩
      rw [ih t z hr0' ht]

/-- `findTag` finds nothing in raw text. -/
theorem findTag_none_of_raw : ∀ (s : Str), RawOk s → findTag s = none := by
  intro s
  induction s with
  | nil => intro _; rfl
  | cons c cs ih =>
      intro hs
      unfold findTag
      have htry : tryTag (c :: cs) = none := by
        apply tryTag_none_of_no_pre
        intro hpre
        exact hs (Occurs.of_isPrefixOf hpre)
      rw [htry]
      rw [ih (hs.of_factor ⟨[c], [], by simp⟩)]

/-- A well-formed tag is nonempty. -/
theorem TagWF.ne_nil {t : Str} (ht : TagWF t) : t ≠ [] := by
  obtain ⟨i, rfl, -, -⟩ := ht
  simp [str]

/-- One-step unfolding of the split scanner. -/
theorem splitTagsGo_succ (n : Nat) (s : Str) :
    splitTagsGo (n + 1) s =
      match findTag s with
      | none => [s]
      | some (b, m, a) => b :: m :: splitTagsGo n a := rfl

/-- The `re.split` scan recovers exactly the alternation structure of a
rendered mask state whose raw segments contain no `[ENC:` and whose
tags are well-formed. -/
theorem splitTagsGo_renderMS :
    ∀ (pairs : List ((Str × Str) × Str)) (r0 : Str) (n : Nat),
      (renderMS (r0, pairs)).length ≤ n →
      RawOk r0 → (∀ p ∈ pairs, RawOk p.2 ∧ TagWF p.1.2) →
      splitTagsGo n (renderMS (r0, pairs)) =
        r0 :: pairs.flatMap (fun p => [p.1.2, p.2]) := by
  intro pairs
  induction pairs with
  | nil =>
      intro r0 n _ hr _
      rw [renderMS_nil]
      cases n with
      | zero => rfl
      | succ n =>
          rw [splitTagsGo_succ, findTag_none_of_raw r0 hr]
          rfl
  | cons g rest ih =>
      intro r0 n hn hr hp
      obtain ⟨vt, r1⟩ := g
      have ht : TagWF vt.2 := (hp (vt, r1) (List.mem_cons_self _ _)).2
      have hr1 : RawOk r1 := (hp (vt, r1) (List.mem_cons_self _ _)).1
      rw [renderMS_cons] at hn ⊢
      cases n with
      | zero =>
          exfalso
          have := congrArg List.length (rfl :
            r0 ++ (vt.2 ++ renderMS (r1, rest)) = r0 ++ (vt.2 ++ renderMS (r1, rest)))
          have hlen : 1 ≤ vt.2.length := by
            cases hv : vt.2 with
            | nil => exact absurd hv ht.ne_nil
            | cons a b => simp
          simp only [List.length_append, Nat.le_zero] at hn
          omega
      | succ n =>
          rw [splitTagsGo_succ, findTag_raw_tag r0 vt.2 (renderMS (r1, rest)) hr ht]
          show r0 :: vt.2 :: splitTagsGo n (renderMS (r1, rest)) = _
          have hlen : (renderMS (r1, rest)).length ≤ n := by
            have h1 : 1 ≤ vt.2.length := by
              cases hv : vt.2 with
              | nil => exact absurd hv ht.ne_nil
              | cons a b => simp
            simp only [List.length_append] at hn
            omega
          rw [ih r1 n hlen hr1 (fun q hq => hp q (List.mem_cons_of_mem _ hq))]
          simp

/-- `splitTags` of a rendered state is the exact alternation. -/
theorem splitTags_renderMS (m : MaskState) (hr : RawOk m.1)
    (hp : ∀ p ∈ m.2, RawOk p.2 ∧ TagWF p.1.2) :
    splitTags (renderMS m) = m.1 :: m.2.flatMap (fun p => [p.1.2, p.2]) := by
  obtain ⟨r0, pairs⟩ := m
  exact splitTagsGo_renderMS pairs r0 _ (Nat.le_refl _) hr hp

/-- `joinWith` as head plus separator-prefixed tail pieces. -/
theorem joinWith_eq_head_flatten (sep : Str) :
    ∀ (ps : List Str) (p0 : Str),
      joinWith sep (p0 :: ps) = p0 ++ (ps.map (fun q => sep ++ q)).flatten := by
  intro ps
  induction ps with
  | nil => intro p0; simp [joinWith]
  | cons q ps ih =>
      intro p0
      show p0 ++ sep ++ joinWith sep (q :: ps) = _
      rw [ih q]
      simp

/-- Rendering a spliced segment followed by extra groups. -/
theorem renderMS_spliceSub (v t r : Str) (L : List ((Str × Str) × Str)) :
    renderMS ((spliceSub v t r).1, (spliceSub v t r).2 ++ L) =
      substituteValue v t r ++ (L.map (fun p => p.1.2 ++ p.2)).flatten := by
  unfold spliceSub
  rw [substituteValue_eq_joinWith]
  match h : subSplit v r with
  | [] => exact absurd h (subSplit_ne_nil v r)
  | p0 :: ps =>
      rw [joinWith_eq_head_flatten]
      simp only [renderMS, List.map_append, List.map_map, List.flatten_append,
        List.append_assoc]
      apply congrArg (fun z => p0 ++ (z ++ (List.map (fun p => p.1.2 ++ p.2) L).flatten))
      exact congrArg List.flatten (List.map_congr_left (fun q _ => rfl))

/-- Original-rendering of a spliced segment followed by extra groups. -/
theorem renderOrigMS_spliceSub (v t r : Str) (L : List ((Str × Str) × Str)) :
    renderOrigMS ((spliceSub v t r).1, (spliceSub v t r).2 ++ L) =
      r ++ (L.map (fun p => p.1.1 ++ p.2)).flatten := by
  unfold spliceSub
  conv_rhs => rw [← joinWith_subSplit v r]
  match h : subSplit v r with
  | [] => exact absurd h (subSplit_ne_nil v r)
  | p0 :: ps =>
      rw [joinWith_eq_head_flatten]
      simp only [renderOrigMS, List.map_append, List.map_map, List.flatten_append,
        List.append_assoc]
      apply congrArg (fun z => p0 ++ (z ++ (List.map (fun p => p.1.1 ++ p.2) L).flatten))
      exact congrArg List.flatten (List.map_congr_left (fun q _ => rfl))

/-- The masking pass over the split parts substitutes exactly the raw
segments (tags are protected by the parity and prefix guards). -/
theorem maskParts_alt (v tag : Str) :
    ∀ (pairs : List ((Str × Str) × Str)) (r0 : Str),
      RawOk r0 → (∀ p ∈ pairs, RawOk p.2) →
      maskParts v tag true (r0 :: pairs.flatMap (fun p => [p.1.2, p.2])) =
        substituteValue v tag r0 ::
          pairs.flatMap (fun p => [p.1.2, substituteValue v tag p.2]) := by
  intro pairs
  induction pairs with
  | nil =>
      intro r0 hr _
      have hg : (str "[ENC:").isPrefixOf r0 = false := by
        by_contra h
        exact hr (Occurs.of_isPrefixOf (by simpa using h))
      simp [maskParts, hg]
  | cons g rest ih =>
      intro r0 hr hp
      obtain ⟨vt, r1⟩ := g
      have hg : (str "[ENC:").isPrefixOf r0 = false := by
        by_contra h
        exact hr (Occurs.of_isPrefixOf (by simpa using h))
      have hstep := ih r1 (hp (vt, r1) (List.mem_cons_self _ _))
        (fun q hq => hp q (List.mem_cons_of_mem _ hq))
      simp only [List.flatMap_cons, List.cons_append]
      show (if true = true ∧ ¬((str "[ENC:").isPrefixOf r0 = true) then substituteValue v tag r0 else r0) ::
      maskParts v tag false (vt.2 :: r1 :: rest.flatMap (fun p => [p.1.2, p.2])) = _
      rw [if_pos ⟨rfl, by simp [hg]⟩]
      show _ :: vt.2 :: maskParts v tag true (r1 :: rest.flatMap (fun p => [p.1.2, p.2])) = _
      rw [hstep]
      simp

/-- `passMS` unfolded on a nil tail. -/
theorem passMS_nil (v t r0 : Str) :
    passMS v t (r0, []) = ((spliceSub v t r0).1, (spliceSub v t r0).2 ++ []) := by
  simp [passMS]

/-- `passMS` unfolded on a cons tail. -/
theorem passMS_cons (v t r0 : Str) (vt : Str × Str) (r1 : Str)
    (rest : List ((Str × Str) × Str)) :
    passMS v t (r0, (vt, r1) :: rest) =
      ((spliceSub v t r0).1,
       (spliceSub v t r0).2 ++
         ((vt, (spliceSub v t r1).1) ::
           ((spliceSub v t r1).2 ++
             rest.flatMap
               (fun p => ((p.1, (spliceSub v t p.2).1) :: (spliceSub v t p.2).2))))) := by
  simp [passMS]

/-- Re-joining the substituted split parts yields the rendering of the
post-pass state. -/
theorem flatten_alt_render (v t : Str) :
    ∀ (pairs : List ((Str × Str) × Str)) (r0 : Str),
      (substituteValue v t r0 ::
        pairs.flatMap (fun p => [p.1.2, substituteValue v t p.2])).flatten =
        renderMS (passMS v t (r0, pairs)) := by
  intro pairs
  induction pairs with
  | nil =>
      intro r0
      rw [passMS_nil, renderMS_spliceSub]
      simp
  | cons g rest ih =>
      intro r0
      obtain ⟨vt, r1⟩ := g
      show (substituteValue v t r0 :: vt.2 :: substituteValue v t r1 ::
        rest.flatMap (fun p => [p.1.2, substituteValue v t p.2])).flatten = _
      rw [List.flatten_cons, List.flatten_cons, ih r1, passMS_cons, renderMS_spliceSub]
      simp [passMS, renderMS, List.append_assoc]

/-- One masking pass on a rendered state is rendered by `passMS`. -/
theorem maskPass_renderMS (v t : Str) (m : MaskState)
    (hr : RawOk m.1) (hp : ∀ p ∈ m.2, RawOk p.2 ∧ TagWF p.1.2) :
    maskPass v t (renderMS m) = renderMS (passMS v t m) := by
  unfold maskPass
  rw [splitTags_renderMS m hr hp,
    maskParts_alt v t m.2 m.1 hr (fun p h => (hp p h).1)]
  obtain ⟨r0, pairs⟩ := m
  exact flatten_alt_render v t pairs r0

/-- A pass never changes the underlying original text. -/
theorem renderOrigMS_passMS (v t : Str) :
    ∀ (pairs : List ((Str × Str) × Str)) (r0 : Str),
      renderOrigMS (passMS v t (r0, pairs)) = renderOrigMS (r0, pairs) := by
  intro pairs
  induction pairs with
  | nil =>
      intro r0
      rw [passMS_nil, renderOrigMS_spliceSub, renderOrigMS_nil]
      simp
  | cons g rest ih =>
      intro r0
      obtain ⟨vt, r1⟩ := g
      rw [passMS_cons, renderOrigMS_spliceSub, renderOrigMS_cons, ← ih r1]
      simp [passMS, renderOrigMS, List.append_assoc]

/-- Every group inserted by `spliceSub` carries the pair `(v, t)`. -/
theorem spliceSub_fst (v t r : Str) :
    ∀ q ∈ (spliceSub v t r).2, q.1 = (v, t) := by
  intro q hq
  unfold spliceSub at hq
  match h : subSplit v r with
  | [] => rw [h] at hq; exact absurd hq (List.not_mem_nil q)
  | p :: ps =>
      rw [h] at hq
      simp only [List.mem_map] at hq
      obtain ⟨x, -, hx⟩ := hq
      rw [← hx]

/-- Provenance of the groups after one pass: old pair or the new one. -/
theorem passMS_pairs (v t : Str) (m : MaskState) :
    ∀ q ∈ (passMS v t m).2, q.1 = (v, t) ∨ q.1 ∈ m.2.map (fun p => p.1) := by
  obtain ⟨r0, pairs⟩ := m
  intro q hq
  simp only [passMS, List.mem_append, List.mem_flatMap] at hq
  rcases hq with hq | ⟨p, hp, hq⟩
  · exact Or.inl (spliceSub_fst v t r0 q hq)
  · rcases List.mem_cons.mp hq with hq | hq
    · right
      rw [hq]
      exact List.mem_map.mpr ⟨p, hp, rfl⟩
    · exact Or.inl (spliceSub_fst v t p.2 q hq)

/-- Every raw component of a state is a factor of its original text. -/
theorem renderOrigMS_factor :
    ∀ (pairs : List ((Str × Str) × Str)) (r0 : Str),
      (∃ y, renderOrigMS (r0, pairs) = r0 ++ y) ∧
      ∀ p ∈ pairs, ∃ x y, renderOrigMS (r0, pairs) = x ++ p.2 ++ y := by
  intro pairs
  induction pairs with
  | nil =>
      intro r0
      exact ⟨⟨_, rfl⟩, fun p hp => absurd hp (List.not_mem_nil p)⟩
  | cons g rest ih =>
      intro r0
      obtain ⟨vt, r1⟩ := g
      refine ⟨⟨_, rfl⟩, ?_⟩
      intro p hp
      rcases List.mem_cons.mp hp with hp | hp
      · refine ⟨r0 ++ vt.1, (rest.map (fun p => p.1.1 ++ p.2)).flatten, ?_⟩
        rw [hp, renderOrigMS_cons]
        show _ = _ ++ r1 ++ _
        have : renderOrigMS (r1, rest) = r1 ++ (rest.map (fun p => p.1.1 ++ p.2)).flatten := rfl
        rw [this]
        simp [List.append_assoc]
      · obtain ⟨x, y, hxy⟩ := (ih r1).2 p hp
        refine ⟨r0 ++ vt.1 ++ x, y, ?_⟩
        rw [renderOrigMS_cons, hxy]
        simp [List.append_assoc]

/-- `isPrefixOf` is transitive. -/
theorem isPrefixOf_trans {p q s : Str} (h1 : p.isPrefixOf q = true)
    (h2 : q.isPrefixOf s = true) : p.isPrefixOf s = true := by
  obtain ⟨a, rfl⟩ := (isPrefixOf_iff_ex p q).mp h1
  obtain ⟨b, rfl⟩ := (isPrefixOf_iff_ex (p ++ a) s).mp h2
  exact (isPrefixOf_iff_ex _ _).mpr ⟨a ++ b, by simp⟩

/-- A well-formed tag starts with `[`. -/
theorem TagWF.head {t : Str} (ht : TagWF t) : ∃ t', t = '[' :: t' := by
  obtain ⟨i, rfl, -, -⟩ := ht
  exact ⟨str "ENC:" ++ i ++ [']'], by simp [str]⟩

/-- A well-formed tag starts with `[ENC:`. -/
theorem TagWF.enc_isPrefixOf {t : Str} (ht : TagWF t) :
    (str "[ENC:").isPrefixOf t = true := by
  obtain ⟨i, rfl, -, -⟩ := ht
  exact (isPrefixOf_iff_ex _ _).mpr ⟨i ++ [']'], by simp⟩

/-- Strings split uniquely at their first `]`. -/
theorem eq_of_append_rbracket :
    ∀ (a b x y : Str), (∀ c ∈ a, c ≠ ']') → (∀ c ∈ b, c ≠ ']') →
      a ++ ']' :: x = b ++ ']' :: y → a = b ∧ x = y := by
  intro a
  induction a with
  | nil =>
      intro b x y _ hb h
      cases b with
      | nil => simpa using h
      | cons d b' =>
          exfalso
          have hd : ']' = d := by simpa using congrArg (fun l => l.headD ' ') h
          exact hb d (List.mem_cons_self d b') hd.symm
  | cons c a' ih =>
      intro b x y ha hb h
      cases b with
      | nil =>
          exfalso
          have hc : c = ']' := by simpa using congrArg (fun l => l.headD ' ') h
          exact ha c (List.mem_cons_self c a') hc
      | cons d b' =>
          injection h with h1 h2
          obtain ⟨he, hx⟩ := ih b' x y (fun e hc => ha e (List.mem_cons_of_mem _ hc))
            (fun e hc => hb e (List.mem_cons_of_mem _ hc)) h2
          exact ⟨by rw [h1, he], hx⟩

/-- A well-formed tag that is a prefix of another well-formed tag with
continuation is that tag: the first `]` closes both. -/
theorem tag_prefix_unique {t0 t1 w : Str} (h0 : TagWF t0) (h1 : TagWF t1)
    (hp : t0.isPrefixOf (t1 ++ w) = true) : t0 = t1 := by
  obtain ⟨i0, rfl, -, hch0⟩ := h0
  obtain ⟨i1, rfl, -, hch1⟩ := h1
  obtain ⟨z, hz⟩ := (isPrefixOf_iff_ex _ _).mp hp
  have hz' : i1 ++ ']' :: w = i0 ++ ']' :: z := by
    have := hz
    simp only [List.append_assoc] at this
    exact (List.append_cancel_left this).symm ▸ by
      have h5 : str "[ENC:" ++ (i1 ++ (']' :: w)) = str "[ENC:" ++ (i0 ++ (']' :: z)) := by
        simpa [List.append_assoc] using this
      simpa using List.append_cancel_left h5
  obtain ⟨he, -⟩ := eq_of_append_rbracket i1 i0 w z
    (fun c hc => (hch1 c hc).1) (fun c hc => (hch0 c hc).1) hz'
  rw [he]

/-- No well-formed tag can start inside a strictly later position of a
different well-formed tag. -/
theorem tag_suffix_not_tag_start {t0 t1 : Str} (h0 : TagWF t0) (h1 : TagWF t1)
    (hne : t1 ≠ t0) :
    ∀ u w, u ≠ [] → (∃ x, x ++ u = t1) → ¬ t0.isPrefixOf (u ++ w) = true := by
  rintro u w hu ⟨x, hx⟩ hp
  cases x with
  | nil =>
      simp only [List.nil_append] at hx
      exact hne (hx ▸ (tag_prefix_unique h0 h1 (hx ▸ hp)).symm)
  | cons d x' =>
      obtain ⟨u0, u', rfl⟩ : ∃ u0 u', u = u0 :: u' := by
        cases u with
        | nil => exact absurd rfl hu
        | cons a b => exact ⟨a, b, rfl⟩
      -- u0 is a character of t1 after position 0, hence not `[`
      obtain ⟨i1, ht1, -, hch1⟩ := h1
      have hmem : u0 ∈ str "ENC:" ++ i1 ++ [']'] := by
        have htail : x' ++ u0 :: u' = str "ENC:" ++ i1 ++ [']'] := by
          have : d :: (x' ++ u0 :: u') = '[' :: (str "ENC:" ++ i1 ++ [']']) := by
            rw [← List.cons_append, hx, ht1]; simp [str]
          exact (List.cons.injEq _ _ _ _).mp this |>.2
        rw [← htail]
        exact List.mem_append_right x' (List.mem_cons_self u0 u')
      have hu0 : u0 ≠ '[' := by
        rcases List.mem_append.mp hmem with hm | hm
        · rcases List.mem_append.mp hm with hm | hm
          · fin_cases hm <;> decide
          · exact (hch1 u0 hm).2
        · simp only [List.mem_singleton] at hm
          rw [hm]; decide
      obtain ⟨t0', ht0'⟩ := h0.head
      obtain ⟨z, hz⟩ := (isPrefixOf_iff_ex _ _).mp hp
      have : u0 = '[' := by
        have := congrArg (fun l => l.headD ' ') hz
        simpa [ht0'] using this
      exact hu0 this

/-- A match of a well-formed tag cannot start inside a raw segment,
whatever follows: either the continuation starts a tag (`[`) or nothing
follows. -/
theorem raw_no_tag_match {r w t0 : Str} (hr : RawOk r) (ht0 : TagWF t0)
    (hw : w = [] ∨ ∃ w', w = '[' :: w') :
    ∀ u, u ≠ [] → (∃ x, x ++ u = r) → ¬ t0.isPrefixOf (u ++ w) = true := by
  intro u hu hx hp
  have henc : (str "[ENC:").isPrefixOf (u ++ w) = true :=
    isPrefixOf_trans ht0.enc_isPrefixOf hp
  rcases hw with rfl | hw
  · -- the tag pattern fits inside u, so `[ENC:` occurs in r
    apply hr
    apply Occurs.mono (Occurs.of_isPrefixOf (by simpa using henc))
    obtain ⟨x, hx⟩ := hx
    exact ⟨x, [], by simp [hx]⟩
  · exact no_tag_start_in_raw hr hw u hu hx henc

/-- Rendering a resolved state, empty tail. -/
theorem resolveMS_render_nil (t0 v0 r0 : Str) :
    renderMS (resolveMS t0 v0 (r0, [])) = r0 := by
  simp [resolveMS, resolvePairs, renderMS]

/-- Rendering a resolved state, matching head group. -/
theorem resolveMS_render_cons_eq (t0 v0 r0 : Str) (vt : Str × Str) (r1 : Str)
    (rest : List ((Str × Str) × Str)) (h : vt.2 = t0) :
    renderMS (resolveMS t0 v0 (r0, (vt, r1) :: rest)) =
      r0 ++ (v0 ++ renderMS (resolveMS t0 v0 (r1, rest))) := by
  simp [resolveMS, resolvePairs, renderMS, h, List.append_assoc]

/-- Rendering a resolved state, non-matching head group. -/
theorem resolveMS_render_cons_ne (t0 v0 r0 : Str) (vt : Str × Str) (r1 : Str)
    (rest : List ((Str × Str) × Str)) (h : ¬ vt.2 = t0) :
    renderMS (resolveMS t0 v0 (r0, (vt, r1) :: rest)) =
      r0 ++ (vt.2 ++ renderMS (resolveMS t0 v0 (r1, rest))) := by
  simp [resolveMS, resolvePairs, renderMS, h, List.append_assoc]

/-- Original rendering of a resolved state, empty tail. -/
theorem resolveMS_orig_nil (t0 v0 r0 : Str) :
    renderOrigMS (resolveMS t0 v0 (r0, [])) = r0 := by
  simp [resolveMS, resolvePairs, renderOrigMS]

/-- Original rendering of a resolved state, matching head group. -/
theorem resolveMS_orig_cons_eq (t0 v0 r0 : Str) (vt : Str × Str) (r1 : Str)
    (rest : List ((Str × Str) × Str)) (h : vt.2 = t0) :
    renderOrigMS (resolveMS t0 v0 (r0, (vt, r1) :: rest)) =
      r0 ++ (v0 ++ renderOrigMS (resolveMS t0 v0 (r1, rest))) := by
  simp [resolveMS, resolvePairs, renderOrigMS, h, List.append_assoc]

/-- Original rendering of a resolved state, non-matching head group. -/
theorem resolveMS_orig_cons_ne (t0 v0 r0 : Str) (vt : Str × Str) (r1 : Str)
    (rest : List ((Str × Str) × Str)) (h : ¬ vt.2 = t0) :
    renderOrigMS (resolveMS t0 v0 (r0, (vt, r1) :: rest)) =
      r0 ++ (vt.1 ++ renderOrigMS (resolveMS t0 v0 (r1, rest))) := by
  simp [resolveMS, resolvePairs, renderOrigMS, h, List.append_assoc]

/-- Resolving a tag whose groups all carry value `v0` preserves the
original text. -/
theorem renderOrigMS_resolveMS (t0 v0 : Str) :
    ∀ (pairs : List ((Str × Str) × Str)) (r0 : Str),
      (∀ p ∈ pairs, p.1.2 = t0 → p.1.1 = v0) →
      renderOrigMS (resolveMS t0 v0 (r0, pairs)) = renderOrigMS (r0, pairs) := by
  intro pairs
  induction pairs with
  | nil =>
      intro r0 _
      rw [resolveMS_orig_nil, renderOrigMS_nil]
  | cons g rest ih =>
      intro r0 hmatch
      obtain ⟨vt, r1⟩ := g
      have ihr := ih r1 (fun p hp => hmatch p (List.mem_cons_of_mem _ hp))
      by_cases heq : vt.2 = t0
      · rw [resolveMS_orig_cons_eq _ _ _ _ _ _ heq, ihr, renderOrigMS_cons,
          hmatch (vt, r1) (List.mem_cons_self _ _) heq]
      · rw [resolveMS_orig_cons_ne _ _ _ _ _ _ heq, ihr, renderOrigMS_cons]

/-- Groups surviving a resolution step: old pairs with a different tag. -/
theorem resolvePairs_sub (t0 v0 : Str) :
    ∀ (pairs : List ((Str × Str) × Str)) (q : (Str × Str) × Str),
      q ∈ (resolvePairs t0 v0 pairs).2 →
      q.1 ∈ pairs.map (fun p => p.1) ∧ q.1.2 ≠ t0 := by
  intro pairs
  induction pairs with
  | nil =>
      intro q hq
      simp [resolvePairs] at hq
  | cons g rest ih =>
      intro q hq
      obtain ⟨vt, r1⟩ := g
      by_cases heq : vt.2 = t0
      · simp only [resolvePairs, if_pos heq] at hq
        obtain ⟨hm, hne⟩ := ih q hq
        exact ⟨List.mem_cons_of_mem _ hm, hne⟩
      · simp only [resolvePairs, if_neg heq] at hq
        rcases List.mem_cons.mp hq with hq | hq
        · refine ⟨?_, by rw [hq]; exact heq⟩
          rw [hq]
          exact List.mem_cons_self _ _
        · obtain ⟨hm, hne⟩ := ih q hq
          exact ⟨List.mem_cons_of_mem _ hm, hne⟩

/-- One restore replacement on a rendered state whose matching groups
all carry value `v0` resolves exactly those groups. -/
theorem restore_step (t0 v0 : Str) (ht0 : TagWF t0) :
    ∀ (pairs : List ((Str × Str) × Str)) (r0 : Str),
      RawOk (renderOrigMS (r0, pairs)) →
      (∀ p ∈ pairs, TagWF p.1.2) →
      (∀ p ∈ pairs, p.1.2 = t0 → p.1.1 = v0) →
      replaceAll t0 v0 (renderMS (r0, pairs)) =
        renderMS (resolveMS t0 v0 (r0, pairs)) := by
  intro pairs
  induction pairs with
  | nil =>
      intro r0 hD _ _
      have hr0 : RawOk r0 := by rw [renderOrigMS_nil] at hD; exact hD
      rw [renderMS_nil, resolveMS_render_nil]
      apply replaceAll_id_of_no_match
      intro u hu hx hp
      exact raw_no_tag_match hr0 ht0 (Or.inl rfl) u hu hx (by simpa using hp)
  | cons g rest ih =>
      intro r0 hD htags hmatch
      obtain ⟨vt, r1⟩ := g
      have hr0 : RawOk r0 := by
        apply RawOk.of_factor hD
        obtain ⟨y, hy⟩ := (renderOrigMS_factor ((vt, r1) :: rest) r0).1
        exact ⟨[], y, by simpa using hy⟩
      have hDrest : RawOk (renderOrigMS (r1, rest)) := by
        apply RawOk.of_factor hD
        refine ⟨r0 ++ vt.1, [], ?_⟩
        rw [renderOrigMS_cons]
        simp [List.append_assoc]
      have htagvt : TagWF vt.2 := htags (vt, r1) (List.mem_cons_self _ _)
      have hwstruct : ∃ w', vt.2 ++ renderMS (r1, rest) = '[' :: w' := by
        obtain ⟨t', ht'⟩ := htagvt.head
        exact ⟨t' ++ renderMS (r1, rest), by rw [ht']; rfl⟩
      have ihr := ih r1 hDrest (fun p hp => htags p (List.mem_cons_of_mem _ hp))
        (fun p hp => hmatch p (List.mem_cons_of_mem _ hp))
      rw [renderMS_cons]
      rw [replaceAll_append_of_no_match t0 v0 r0 (vt.2 ++ renderMS (r1, rest))
        (fun u hu hx hp => raw_no_tag_match hr0 ht0 (Or.inr hwstruct) u hu hx hp)]
      by_cases heq : vt.2 = t0
      · rw [heq, replaceAll_match t0 v0 _ ht0.ne_nil, ihr,
          resolveMS_render_cons_eq _ _ _ _ _ _ heq]
      · rw [replaceAll_append_of_no_match t0 v0 vt.2 (renderMS (r1, rest))
          (fun u hu hx hp => tag_suffix_not_tag_start ht0 htagvt heq u _ hu hx hp),
          ihr, resolveMS_render_cons_ne _ _ _ _ _ _ heq]

/-- Raw components inherit `RawOk` from the original document. -/
theorem rawOk_components {D : Str} (pairs : List ((Str × Str) × Str)) (r0 : Str)
    (hD : RawOk D) (h : renderOrigMS (r0, pairs) = D) :
    RawOk r0 ∧ ∀ p ∈ pairs, RawOk p.2 := by
  obtain ⟨⟨y, hy⟩, hf⟩ := renderOrigMS_factor pairs r0
  constructor
  · exact RawOk.of_factor hD ⟨[], y, by rw [← h, hy]; rfl⟩
  · intro p hp
    obtain ⟨x, y', hxy⟩ := hf p hp
    exact RawOk.of_factor hD ⟨x, y', by rw [← h, hxy]⟩

/-- A pass preserves well-formedness of the inserted tags. -/
theorem passMS_tags (v t : Str) (m : MaskState) (ht : TagWF t)
    (hp : ∀ p ∈ m.2, TagWF p.1.2) :
    ∀ q ∈ (passMS v t m).2, TagWF q.1.2 := by
  intro q hq
  rcases passMS_pairs v t m q hq with h | h
  · rw [h]; exact ht
  · obtain ⟨p, hpm, hpe⟩ := List.mem_map.mp h
    rw [← hpe]
    exact hp p hpm

/-- Membership is preserved by sorted insertion. -/
theorem mem_insertLe {α : Type} {le : α → α → Bool} (a b : α) :
    ∀ l : List α, b ∈ insertLe le a l ↔ b = a ∨ b ∈ l := by
  intro l
  induction l with
  | nil => simp [insertLe]
  | cons c cs ih =>
      simp only [insertLe]
      by_cases h : le a c = true
      · rw [if_pos h]
        simp [List.mem_cons]
      · rw [if_neg h]
        simp only [List.mem_cons, ih]
        tauto

/-- The stable insertion sort is a permutation: same members. -/
theorem mem_insertionSort {α : Type} {le : α → α → Bool} (b : α) :
    ∀ l : List α, b ∈ insertionSort le l ↔ b ∈ l := by
  intro l
  induction l with
  | nil => simp [insertionSort]
  | cons c cs ih =>
      simp only [insertionSort, mem_insertLe, ih, List.mem_cons]

/-- The masking fold simulated on states: the result is a rendered
state over the same original text whose groups all come from the
processed records. -/
theorem maskFold_sim :
    ∀ (recs : List MaskingRecord) (m : MaskState) (D : Str),
      RawOk D → renderOrigMS m = D → (∀ p ∈ m.2, TagWF p.1.2) →
      (∀ r ∈ recs, TagWF r.masked) →
      ∃ m' : MaskState,
        recs.foldl (fun text r => maskPass r.original r.masked text) (renderMS m) =
          renderMS m' ∧
        renderOrigMS m' = D ∧ (∀ p ∈ m'.2, TagWF p.1.2) ∧
        (∀ q ∈ m'.2, q.1 ∈ m.2.map (fun p => p.1) ∨
          ∃ r ∈ recs, q.1 = (r.original, r.masked)) := by
  intro recs
  induction recs with
  | nil =>
      intro m D _ hren htags _
      exact ⟨m, rfl, hren, htags,
        fun q hq => Or.inl (List.mem_map.mpr ⟨q, hq, rfl⟩)⟩
  | cons r rest ih =>
      intro m D hD hren htags hrecs
      obtain ⟨r0, pairs⟩ := m
      have hraw := rawOk_components pairs r0 hD hren
      have hsim := maskPass_renderMS r.original r.masked (r0, pairs) hraw.1
        (fun p hp => ⟨hraw.2 p hp, htags p hp⟩)
      have hren1 : renderOrigMS (passMS r.original r.masked (r0, pairs)) = D := by
        rw [renderOrigMS_passMS]; exact hren
      have htags1 := passMS_tags r.original r.masked (r0, pairs)
        (hrecs r (List.mem_cons_self _ _)) htags
      obtain ⟨m', hfold, hren', htags', hprov⟩ :=
        ih (passMS r.original r.masked (r0, pairs)) D hD hren1 htags1
          (fun r' hr' => hrecs r' (List.mem_cons_of_mem _ hr'))
      refine ⟨m', ?_, hren', htags', ?_⟩
      · rw [List.foldl_cons, hsim]
        exact hfold
      · intro q hq
        rcases hprov q hq with h | h
        · obtain ⟨p1, hp1, hpe⟩ := List.mem_map.mp h
          rcases passMS_pairs r.original r.masked (r0, pairs) p1 hp1 with h2 | h2
          · exact Or.inr ⟨r, List.mem_cons_self _ _, by rw [← hpe, h2]⟩
          · exact Or.inl (by rw [← hpe]; exact h2)
        · obtain ⟨r', hr', he⟩ := h
          exact Or.inr ⟨r', List.mem_cons_of_mem _ hr', he⟩

/-- The restore fold on a rendered state resolves every group and
returns the original text. -/
theorem restoreFold_sim :
    ∀ (recs : List MaskingRecord) (m : MaskState) (D : Str),
      RawOk D → renderOrigMS m = D → (∀ p ∈ m.2, TagWF p.1.2) →
      (∀ r ∈ recs, ∀ r' ∈ recs, r.masked = r'.masked → r.original = r'.original) →
      (∀ p ∈ m.2, ∃ r ∈ recs, p.1 = (r.original, r.masked)) →
      (∀ r ∈ recs, TagWF r.masked) →
      recs.foldl (fun t r => replaceAll r.masked r.original t) (renderMS m) = D := by
  intro recs
  induction recs with
  | nil =>
      intro m D _ hren _ _ hcov _
      obtain ⟨r0, pairs⟩ := m
      have hnil : pairs = [] := by
        cases pairs with
        | nil => rfl
        | cons p ps =>
            obtain ⟨r, hr, -⟩ := hcov p (List.mem_cons_self _ _)
            exact absurd hr (List.not_mem_nil r)
      rw [hnil] at hren ⊢
      rw [List.foldl_nil, renderMS_nil, ← hren, renderOrigMS_nil]
  | cons r rest ih =>
      intro m D hD hren htags hinj hcov hwf
      obtain ⟨r0, pairs⟩ := m
      have hstep := restore_step r.masked r.original
        (hwf r (List.mem_cons_self _ _)) pairs r0 (by rw [hren]; exact hD) htags
        (fun p hp hpt => by
          obtain ⟨r', hr', he⟩ := hcov p hp
          have : r'.masked = r.masked := by rw [he] at hpt; exact hpt
          have := hinj r' hr' r (List.mem_cons_self _ _) this
          rw [he]
          exact this)
      rw [List.foldl_cons, hstep]
      have hres : resolveMS r.masked r.original (r0, pairs) =
          (r0 ++ (resolvePairs r.masked r.original pairs).1,
           (resolvePairs r.masked r.original pairs).2) := rfl
      rw [hres]
      apply ih
      · exact hD
      · rw [show (r0 ++ (resolvePairs r.masked r.original pairs).1,
            (resolvePairs r.masked r.original pairs).2) =
            resolveMS r.masked r.original (r0, pairs) from rfl]
        rw [renderOrigMS_resolveMS r.masked r.original pairs r0
          (fun p hp hpt => by
            obtain ⟨r', hr', he⟩ := hcov p hp
            have : r'.masked = r.masked := by rw [he] at hpt; exact hpt
            have := hinj r' hr' r (List.mem_cons_self _ _) this
            rw [he]
            exact this)]
        exact hren
      · intro p hp
        obtain ⟨hm, -⟩ := resolvePairs_sub r.masked r.original pairs p hp
        obtain ⟨p1, hp1, hpe⟩ := List.mem_map.mp hm
        have := htags p1 hp1
        rw [← hpe]
        exact this
      · exact fun a ha b hb => hinj a (List.mem_cons_of_mem _ ha) b (List.mem_cons_of_mem _ hb)
      · intro p hp
        obtain ⟨hm, hne⟩ := resolvePairs_sub r.masked r.original pairs p hp
        obtain ⟨p1, hp1, hpe⟩ := List.mem_map.mp hm
        obtain ⟨r', hr', he⟩ := hcov p1 hp1
        rcases List.mem_cons.mp hr' with hr' | hr'
        · exfalso
          apply hne
          rw [← hpe, he, hr']
        · exact ⟨r', hr', by rw [← hpe]; exact he⟩
      · exact fun a ha => hwf a (List.mem_cons_of_mem _ ha)

/-- A hex digit is never a bracket. -/
theorem hexDigit_ok (n : Nat) : MD5.hexDigit n ≠ ']' ∧ MD5.hexDigit n ≠ '[' := by
  unfold MD5.hexDigit
  rcases Nat.lt_or_ge n 16 with h | h
  · interval_cases n <;> exact ⟨by decide, by decide⟩
  · rw [List.getD_eq_default]
    · exact ⟨by decide, by decide⟩
    · simpa [str] using h

/-- Characters of `hexByte` are never brackets. -/
theorem hexByte_ok (n : Nat) : ∀ c ∈ MD5.hexByte n, c ≠ ']' ∧ c ≠ '[' := by
  intro c hc
  simp only [MD5.hexByte, List.mem_cons, List.not_mem_nil, or_false] at hc
  rcases hc with h | h
  · rw [h]; exact hexDigit_ok _
  · rw [h]; exact hexDigit_ok _

/-- Characters of `hexWordLE` are never brackets. -/
theorem hexWordLE_ok (w : Nat) : ∀ c ∈ MD5.hexWordLE w, c ≠ ']' ∧ c ≠ '[' := by
  intro c hc
  unfold MD5.hexWordLE at hc
  rcases List.mem_append.mp hc with hc | hc
  · rcases List.mem_append.mp hc with hc | hc
    · rcases List.mem_append.mp hc with hc | hc
      · exact hexByte_ok _ c hc
      · exact hexByte_ok _ c hc
    · exact hexByte_ok _ c hc
  · exact hexByte_ok _ c hc

/-- Characters of an md5 hex digest are never brackets. -/
theorem md5hexdigest_ok (s : Str) : ∀ c ∈ md5hexdigest s, c ≠ ']' ∧ c ≠ '[' := by
  intro c hc
  unfold md5hexdigest at hc
  rcases List.mem_append.mp hc with hc | hc
  · rcases List.mem_append.mp hc with hc | hc
    · rcases List.mem_append.mp hc with hc | hc
      · exact hexWordLE_ok _ c hc
      · exact hexWordLE_ok _ c hc
    · exact hexWordLE_ok _ c hc
  · exact hexWordLE_ok _ c hc

/-- The produced tag is a well-formed tag whenever the label is
bracket-free. -/
theorem mkTag_TagWF (label value : Str)
    (hlab : ∀ c ∈ label, c ≠ ']' ∧ c ≠ '[') : TagWF (mkTag label value) := by
  refine ⟨label ++ str "_" ++ md5hex8 value, ?_, ?_, ?_⟩
  · unfold mkTag
    simp [str, List.append_assoc]
  · intro h
    have := congrArg List.length h
    simp [str] at this
  · intro c hc
    rcases List.mem_append.mp hc with hc | hc
    · rcases List.mem_append.mp hc with hc | hc
      · exact hlab c hc
      · fin_cases hc <;> exact ⟨by decide, by decide⟩
    · exact md5hexdigest_ok value c (List.mem_of_mem_take hc)

/-- Every mapping record's label and original value come from the
detected PII list. -/
theorem buildMappingGo_labels (enc : Nat → Str → Str) :
    ∀ (pii : List PiiEntry) (seen : List Str) (k : Nat),
      ∀ r ∈ buildMappingGo enc seen k pii,
        ∃ e ∈ pii, r.label = e.1 ∧ r.original = e.2 := by
  intro pii
  induction pii with
  | nil =>
      intro seen k r hr
      simp [buildMappingGo] at hr
  | cons e rest ih =>
      intro seen k r hr
      obtain ⟨l, v⟩ := e
      by_cases hc : seen.contains v = true
      · have hm : v ∈ seen := by simpa using hc
        rw [show buildMappingGo enc seen k ((l, v) :: rest) =
          buildMappingGo enc seen k rest by simp [buildMappingGo, hm]] at hr
        obtain ⟨e', he', hp⟩ := ih seen k r hr
        exact ⟨e', List.mem_cons_of_mem _ he', hp⟩
      · have hm : v ∉ seen := by simpa using hc
        rw [show buildMappingGo enc seen k ((l, v) :: rest) =
          ⟨v, enc k v, l, mkTag l v⟩ :: buildMappingGo enc (v :: seen) (k + 1) rest
          by simp [buildMappingGo, hm]] at hr
        rcases List.mem_cons.mp hr with hr | hr
        · exact ⟨(l, v), List.mem_cons_self _ _, by rw [hr], by rw [hr]⟩
        · obtain ⟨e', he', hp⟩ := ih (v :: seen) (k + 1) r hr
          exact ⟨e', List.mem_cons_of_mem _ he', hp⟩

/-- Every record of the built mapping carries a well-formed tag when
the labels are bracket-free. -/
theorem buildMapping_TagWF (enc : Nat → Str → Str) (pii : List PiiEntry)
    (hlab : ∀ e ∈ pii, ∀ c ∈ e.1, c ≠ ']' ∧ c ≠ '[') :
    ∀ r ∈ buildMapping enc pii, TagWF r.masked := by
  intro r hr
  have hmask := (buildMappingGo_spec enc pii [] 0).2.2 r hr
  obtain ⟨e, he, hl, -⟩ := buildMappingGo_labels enc pii [] 0 r hr
  rw [hmask]
  exact mkTag_TagWF r.label r.original (hl ▸ hlab e he)

/-- C1, amended: the text-pipeline round trip restores the document
exactly, provided the document contains no text of the form `[ENC:`,
the labels are bracket-free and backslash-free (a backslash in a label
would be escape-processed by `re.sub` when the tag is inserted, so the
inserted text would differ from the mapping's `masked` field), and no
two mapping records share a masked tag with different originals. -/
theorem C1_amended_round_trip (enc : Nat → Str → Str) (pii : List PiiEntry)
    (D : Str)
    (hD : strContains D (str "[ENC:") = false)
    (hlab : ∀ e ∈ pii, ∀ c ∈ e.1, c ≠ ']' ∧ c ≠ '[' ∧ c ≠ '\\')
    (hinj : ∀ r ∈ buildMapping enc pii, ∀ r' ∈ buildMapping enc pii,
      r.masked = r'.masked → r.original = r'.original) :
    restoreText (processTextPipeline enc pii D).2
      (processTextPipeline enc pii D).1 = D := by
  have hDraw : RawOk D := by
    intro hocc
    rw [← strContains_iff_Occurs] at hocc
    rw [hD] at hocc
    exact Bool.false_ne_true hocc
  have htag := buildMapping_TagWF enc pii
    (fun e he c hc => ⟨(hlab e he c hc).1, (hlab e he c hc).2.1⟩)
  have hmemM : ∀ r ∈ sortByValueLen (buildMapping enc pii),
      r ∈ buildMapping enc pii :=
    fun r hr => (mem_insertionSort r _).mp hr
  have hmemR : ∀ r ∈ sortByTagLen (buildMapping enc pii),
      r ∈ buildMapping enc pii :=
    fun r hr => (mem_insertionSort r _).mp hr
  obtain ⟨m', hfold, hren', htags', hprov⟩ :=
    maskFold_sim (sortByValueLen (buildMapping enc pii)) (D, []) D hDraw
      (renderOrigMS_nil D) (fun p hp => absurd hp (List.not_mem_nil p))
      (fun r hr => htag r (hmemM r hr))
  have hmask : (processTextPipeline enc pii D).1 = renderMS m' := by
    show applyMask (buildMapping enc pii) D = renderMS m'
    unfold applyMask
    rw [← hfold, renderMS_nil]
  show restoreText (buildMapping enc pii) (processTextPipeline enc pii D).1 = D
  rw [hmask]
  unfold restoreText
  apply restoreFold_sim (sortByTagLen (buildMapping enc pii)) m' D hDraw hren' htags'
  · intro r hr r' hr' h
    exact hinj r (hmemR r hr) r' (hmemR r' hr') h
  · intro p hp
    rcases hprov p hp with h | h
    · simp at h
    · obtain ⟨r, hr, he⟩ := h
      exact ⟨r, (mem_insertionSort r _).mpr (hmemM r hr), he⟩
  · exact fun r hr => htag r (hmemR r hr)

set_option maxRecDepth 40000 in
/-- Witness for C1: a concrete document and PII list satisfying the
hypotheses, on which the round trip restores the document. -/
theorem C1_witness :
    strContains (str "ab x") (str "[ENC:") = false ∧
    (∀ e ∈ [(str "IC", str "ab")], ∀ c ∈ e.1, c ≠ ']' ∧ c ≠ '[' ∧ c ≠ '\\') ∧
    restoreText
      (processTextPipeline (fun _ _ => str "X") [(str "IC", str "ab")] (str "ab x")).2
      (processTextPipeline (fun _ _ => str "X") [(str "IC", str "ab")] (str "ab x")).1 =
      str "ab x" :=
  ⟨by decide, by decide,
    C1_amended_round_trip (fun _ _ => str "X") [(str "IC", str "ab")] (str "ab x")
      (by decide) (by decide) (by decide)⟩

set_option maxRecDepth 40000 in
/-- Counterexample to the unconditional C1: a document that already
contains the very tag the masker would produce is not restored to
itself. -/
theorem C1_counterexample_tag_shaped_document :
    restoreText
      (processTextPipeline (fun _ _ => str "X") [(str "IC", str "ab")]
        (str "ab [ENC:IC_187ef443]")).2
      (processTextPipeline (fun _ _ => str "X") [(str "IC", str "ab")]
        (str "ab [ENC:IC_187ef443]")).1 ≠ str "ab [ENC:IC_187ef443]" := by
  decide

/-- The head piece of the scan decomposition is a prefix of the input. -/
theorem splitOnGo_head_prefix (pat : Str) :
    ∀ (n : Nat) (s q : Str) (qs : List Str),
      splitOnGo pat n s = q :: qs → ∃ w, s = q ++ w := by
  intro n
  induction n with
  | zero =>
      intro s q qs h
      injection h with h1 _
      exact ⟨[], by rw [← h1]; simp⟩
  | succ n ih =>
      intro s q qs h
      cases s with
      | nil =>
          injection h with h1 _
          exact ⟨[], by rw [← h1]; rfl⟩
      | cons c cs =>
          by_cases hm : pat.isPrefixOf (c :: cs) = true ∧ pat ≠ []
          · rw [show splitOnGo pat (n + 1) (c :: cs) =
              [] :: splitOnGo pat n ((c :: cs).drop pat.length) by
                show (if pat.isPrefixOf (c :: cs) ∧ pat ≠ [] then _ else _) = _
                rw [if_pos ⟨hm.1, hm.2⟩]] at h
            injection h with h1 _
            exact ⟨c :: cs, by rw [← h1]; rfl⟩
          · have hsplit : splitOnGo pat (n + 1) (c :: cs) =
                consHead c (splitOnGo pat n cs) := by
              show (if pat.isPrefixOf (c :: cs) ∧ pat ≠ [] then _ else _) = _
              rw [if_neg (by simpa using hm)]
            rw [hsplit] at h
            match hrec : splitOnGo pat n cs with
            | [] => exact absurd hrec (splitOnGo_ne_nil pat n cs)
            | q' :: qs' =>
                rw [hrec] at h
                injection h with h1 _
                obtain ⟨w, hw⟩ := ih cs q' qs' hrec
                exact ⟨w, by rw [← h1, hw]; rfl⟩

/-- A prefix of a string is a prefix of any extension of it. -/
theorem isPrefixOf_append_right {p a : Str} (w : Str)
    (h : p.isPrefixOf a = true) : p.isPrefixOf (a ++ w) = true := by
  obtain ⟨z, rfl⟩ := (isPrefixOf_iff_ex p a).mp h
  exact (isPrefixOf_iff_ex _ _).mpr ⟨z ++ w, by simp⟩

/-- With enough fuel, no scan piece contains an occurrence of the
pattern. -/
theorem splitOnGo_piece_free (pat : Str) (hpat : pat ≠ []) :
    ∀ (n : Nat) (s : Str), s.length ≤ n →
      ∀ p ∈ splitOnGo pat n s, ¬ Occurs pat p := by
  intro n
  induction n with
  | zero =>
      intro s hlen p hp hocc
      have hs : s = [] := List.eq_nil_of_length_eq_zero (Nat.le_zero.mp hlen)
      rw [hs] at hp
      have hp' : p = [] := by simpa [splitOnGo] using hp
      obtain ⟨a, b, hab⟩ := hocc
      rw [hp'] at hab
      have := congrArg List.length hab
      simp at this
      exact hpat (List.eq_nil_of_length_eq_zero (by omega))
  | succ n ih =>
      intro s hlen p hp hocc
      cases s with
      | nil =>
          have hp' : p = [] := by simpa [splitOnGo] using hp
          obtain ⟨a, b, hab⟩ := hocc
          rw [hp'] at hab
          have := congrArg List.length hab
          simp at this
          exact hpat (List.eq_nil_of_length_eq_zero (by omega))
      | cons c cs =>
          by_cases hm : pat.isPrefixOf (c :: cs) = true
          · rw [show splitOnGo pat (n + 1) (c :: cs) =
              [] :: splitOnGo pat n ((c :: cs).drop pat.length) by
                show (if pat.isPrefixOf (c :: cs) ∧ pat ≠ [] then _ else _) = _
                rw [if_pos ⟨hm, hpat⟩]] at hp
            rcases List.mem_cons.mp hp with hp | hp
            · obtain ⟨a, b, hab⟩ := hocc
              rw [hp] at hab
              have := congrArg List.length hab
              simp at this
              exact hpat (List.eq_nil_of_length_eq_zero (by omega))
            · have hplen : 1 ≤ pat.length := by
                cases pat with
                | nil => exact absurd rfl hpat
                | cons _ _ => simp
              have hdlen : ((c :: cs).drop pat.length).length ≤ n := by
                simp only [List.length_drop, List.length_cons] at *
                omega
              exact ih _ hdlen p hp hocc
          · have hsplit : splitOnGo pat (n + 1) (c :: cs) =
                consHead c (splitOnGo pat n cs) := by
              show (if pat.isPrefixOf (c :: cs) ∧ pat ≠ [] then _ else _) = _
              rw [if_neg (by simp [hm])]
            rw [hsplit] at hp
            match hrec : splitOnGo pat n cs with
            | [] => exact absurd hrec (splitOnGo_ne_nil pat n cs)
            | q' :: qs' =>
                rw [hrec] at hp
                have hcslen : cs.length ≤ n := by
                  simpa using hlen
                rcases List.mem_cons.mp hp with hp | hp
                · -- p = c :: q', the extended head piece
                  obtain ⟨a, b, hab⟩ := hocc
                  cases a with
                  | nil =>
                      -- pat would be a prefix of c :: cs
                      exfalso
                      apply hm
                      obtain ⟨w, hw⟩ := splitOnGo_head_prefix pat n cs q' qs' hrec
                      have hp1 : pat.isPrefixOf p = true :=
                        (isPrefixOf_iff_ex _ _).mpr ⟨b, by simpa using hab⟩
                      have hpre : pat.isPrefixOf (c :: q') = true := hp ▸ hp1
                      have hext := isPrefixOf_append_right w hpre
                      rw [show (c :: q') ++ w = c :: cs by rw [hw]; rfl] at hext
                      exact hext
                  | cons a0 a' =>
                      -- the occurrence lies inside q'
                      rw [hp] at hab
                      injection hab with h1 h2
                      exact ih cs hcslen q' (hrec ▸ List.mem_cons_self _ _)
                        ⟨a', b, h2⟩
                · exact ih cs hcslen p (hrec ▸ List.mem_cons_of_mem _ hp) hocc

/-- With no occurrence of the pattern, the scan yields a single piece. -/
theorem splitOnGo_single (pat : Str) :
    ∀ (n : Nat) (s : Str), ¬ Occurs pat s → splitOnGo pat n s = [s] := by
  intro n
  induction n with
  | zero => intro s _; rfl
  | succ n ih =>
      intro s hocc
      cases s with
      | nil => rfl
      | cons c cs =>
          have hm : ¬ (pat.isPrefixOf (c :: cs) = true ∧ pat ≠ []) := by
            rintro ⟨hpre, -⟩
            exact hocc (Occurs.of_isPrefixOf hpre)
          have hsplit : splitOnGo pat (n + 1) (c :: cs) =
              consHead c (splitOnGo pat n cs) := by
            show (if pat.isPrefixOf (c :: cs) ∧ pat ≠ [] then _ else _) = _
            rw [if_neg (by simpa using hm)]
          rw [hsplit, ih cs (fun h => hocc (h.mono ⟨[c], [], by simp⟩))]
          rfl

/-- Every scan piece is a factor of the input. -/
theorem splitOnGo_factor (pat : Str) :
    ∀ (n : Nat) (s : Str), ∀ p ∈ splitOnGo pat n s, ∃ x y, s = x ++ p ++ y := by
  intro n
  induction n with
  | zero =>
      intro s p hp
      have : p = s := by simpa [splitOnGo] using hp
      exact ⟨[], [], by simp [this]⟩
  | succ n ih =>
      intro s p hp
      cases s with
      | nil =>
          have : p = [] := by simpa [splitOnGo] using hp
          exact ⟨[], [], by simp [this]⟩
      | cons c cs =>
          by_cases hm : pat.isPrefixOf (c :: cs) = true ∧ pat ≠ []
          · rw [show splitOnGo pat (n + 1) (c :: cs) =
              [] :: splitOnGo pat n ((c :: cs).drop pat.length) by
                show (if pat.isPrefixOf (c :: cs) ∧ pat ≠ [] then _ else _) = _
                rw [if_pos ⟨hm.1, hm.2⟩]] at hp
            rcases List.mem_cons.mp hp with hp | hp
            · exact ⟨[], c :: cs, by simp [hp]⟩
            · obtain ⟨x, y, hxy⟩ := ih _ p hp
              refine ⟨(c :: cs).take pat.length ++ x, y, ?_⟩
              conv_lhs => rw [← List.take_append_drop pat.length (c :: cs)]
              rw [hxy]
              simp [List.append_assoc]
          · have hsplit : splitOnGo pat (n + 1) (c :: cs) =
                consHead c (splitOnGo pat n cs) := by
              show (if pat.isPrefixOf (c :: cs) ∧ pat ≠ [] then _ else _) = _
              rw [if_neg (by simpa using hm)]
            rw [hsplit] at hp
            match hrec : splitOnGo pat n cs with
            | [] => exact absurd hrec (splitOnGo_ne_nil pat n cs)
            | q' :: qs' =>
                rw [hrec] at hp
                rcases List.mem_cons.mp hp with hp | hp
                · obtain ⟨w, hw⟩ := splitOnGo_head_prefix pat n cs q' qs' hrec
                  exact ⟨[], w, by rw [hp, hw]; rfl⟩
                · obtain ⟨x, y, hxy⟩ := ih cs p (hrec ▸ List.mem_cons_of_mem _ hp)
                  exact ⟨c :: x, y, by rw [hxy]; rfl⟩

/-- The head piece of the boundary scan is a prefix of the input. -/
theorem splitWBGo_head_prefix (d : Char) :
    ∀ (s : Str) (pw : Bool) (q : Str) (qs : List Str),
      splitWBGo d pw s = q :: qs → ∃ w, s = q ++ w := by
  intro s
  induction s with
  | nil =>
      intro pw q qs h
      injection h with h1 _
      exact ⟨[], by rw [← h1]; rfl⟩
  | cons c cs ih =>
      intro pw q qs h
      by_cases hm : c = d ∧ pw = false ∧ ¬ (isWordChar (cs.headD ' ') = true)
      · rw [show splitWBGo d pw (c :: cs) = [] :: splitWBGo d true cs by
          show (if c = d ∧ pw = false ∧ ¬ (isWordChar (cs.headD ' ') = true)
            then _ else _) = _
          rw [if_pos hm]] at h
        injection h with h1 _
        exact ⟨c :: cs, by rw [← h1]; rfl⟩
      · have hsplit : splitWBGo d pw (c :: cs) =
            consHead c (splitWBGo d (isWordChar c) cs) := by
          show (if c = d ∧ pw = false ∧ ¬ (isWordChar (cs.headD ' ') = true)
            then _ else _) = _
          rw [if_neg hm]
        rw [hsplit] at h
        match hrec : splitWBGo d (isWordChar c) cs with
        | [] => exact absurd hrec (splitWBGo_ne_nil d _ cs)
        | q' :: qs' =>
            rw [hrec] at h
            injection h with h1 _
            obtain ⟨w, hw⟩ := ih (isWordChar c) q' qs' hrec
            exact ⟨w, by rw [← h1, hw]; rfl⟩

/-- Every boundary-scan piece is a factor of the input. -/
theorem splitWBGo_factor (d : Char) :
    ∀ (s : Str) (pw : Bool), ∀ p ∈ splitWBGo d pw s, ∃ x y, s = x ++ p ++ y := by
  intro s
  induction s with
  | nil =>
      intro pw p hp
      have : p = [] := by simpa [splitWBGo] using hp
      exact ⟨[], [], by simp [this]⟩
  | cons c cs ih =>
      intro pw p hp
      by_cases hm : c = d ∧ pw = false ∧ ¬ (isWordChar (cs.headD ' ') = true)
      · rw [show splitWBGo d pw (c :: cs) = [] :: splitWBGo d true cs by
          show (if c = d ∧ pw = false ∧ ¬ (isWordChar (cs.headD ' ') = true)
            then _ else _) = _
          rw [if_pos hm]] at hp
        rcases List.mem_cons.mp hp with hp | hp
        · exact ⟨[], c :: cs, by simp [hp]⟩
        · obtain ⟨x, y, hxy⟩ := ih true p hp
          exact ⟨c :: x, y, by rw [hxy]; rfl⟩
      · have hsplit : splitWBGo d pw (c :: cs) =
            consHead c (splitWBGo d (isWordChar c) cs) := by
          show (if c = d ∧ pw = false ∧ ¬ (isWordChar (cs.headD ' ') = true)
            then _ else _) = _
          rw [if_neg hm]
        rw [hsplit] at hp
        match hrec : splitWBGo d (isWordChar c) cs with
        | [] => exact absurd hrec (splitWBGo_ne_nil d _ cs)
        | q' :: qs' =>
            rw [hrec] at hp
            rcases List.mem_cons.mp hp with hp | hp
            · obtain ⟨w, hw⟩ := splitWBGo_head_prefix d cs (isWordChar c) q' qs' hrec
              exact ⟨[], w, by rw [hp, hw]; rfl⟩
            · obtain ⟨x, y, hxy⟩ := ih (isWordChar c) p
                (hrec ▸ List.mem_cons_of_mem _ hp)
              exact ⟨c :: x, y, by rw [hxy]; rfl⟩

/-- Every substitution piece is a factor of the segment. -/
theorem subSplit_factor (v r : Str) :
    ∀ p ∈ subSplit v r, ∃ x y, r = x ++ p ++ y := by
  intro p hp
  unfold subSplit at hp
  by_cases hd : v.length = 1 ∧ isDigitChar (v.headD ' ') = true
  · rw [if_pos hd] at hp
    exact splitWBGo_factor _ r false p hp
  · rw [if_neg hd] at hp
    exact splitOnGo_factor v r.length r p hp

/-- For a value that is not a lone digit and does not occur in the
segment, the substitution split is trivial. -/
theorem subSplit_single (v r : Str)
    (hnd : ¬ (v.length = 1 ∧ isDigitChar (v.headD ' ') = true))
    (hocc : ¬ Occurs v r) : subSplit v r = [r] := by
  unfold subSplit
  rw [if_neg hnd]
  exact splitOnGo_single v r.length r hocc

/-- For a non-lone-digit value, no substitution piece contains the
value. -/
theorem subSplit_free (v r : Str) (hne : v ≠ [])
    (hnd : ¬ (v.length = 1 ∧ isDigitChar (v.headD ' ') = true)) :
    ∀ p ∈ subSplit v r, ¬ Occurs v p := by
  intro p hp
  unfold subSplit at hp
  rw [if_neg hnd] at hp
  exact splitOnGo_piece_free v hne r.length r (Nat.le_refl _) p hp

/-- The head of the splice is a substitution piece. -/
theorem spliceSub_mem1 (v t r : Str) : (spliceSub v t r).1 ∈ subSplit v r := by
  unfold spliceSub
  match h : subSplit v r with
  | [] => exact absurd h (subSplit_ne_nil v r)
  | p :: ps => exact List.mem_cons_self _ _

/-- The raw parts of the splice tail are substitution pieces. -/
theorem spliceSub_mem2 (v t r : Str) :
    ∀ q ∈ (spliceSub v t r).2, q.2 ∈ subSplit v r := by
  intro q hq
  unfold spliceSub at hq
  match h : subSplit v r with
  | [] => rw [h] at hq; exact absurd hq (List.not_mem_nil q)
  | p :: ps =>
      rw [h] at hq
      simp only [List.mem_map] at hq
      obtain ⟨x, hx, hxe⟩ := hq
      rw [← hxe]
      exact List.mem_cons_of_mem _ hx

/-- A splice on a segment not containing the (non-lone-digit) value is
trivial. -/
theorem spliceSub_id (v t r : Str)
    (hnd : ¬ (v.length = 1 ∧ isDigitChar (v.headD ' ') = true))
    (hocc : ¬ Occurs v r) : spliceSub v t r = (r, []) := by
  unfold spliceSub
  rw [subSplit_single v r hnd hocc]
  rfl

/-- A pass whose value occurs in no raw segment leaves the state
untouched. -/
theorem passMS_id (v t : Str) (m : MaskState)
    (hnd : ¬ (v.length = 1 ∧ isDigitChar (v.headD ' ') = true))
    (h0 : ¬ Occurs v m.1) (hp : ∀ p ∈ m.2, ¬ Occurs v p.2) :
    passMS v t m = m := by
  obtain ⟨r0, pairs⟩ := m
  unfold passMS
  rw [spliceSub_id v t r0 hnd h0]
  have htail : ∀ L : List ((Str × Str) × Str), (∀ p ∈ L, ¬ Occurs v p.2) →
      L.flatMap (fun p => ((p.1, (spliceSub v t p.2).1) :: (spliceSub v t p.2).2)) = L := by
    intro L
    induction L with
    | nil => intro _; rfl
    | cons g rest ih =>
        intro hL
        rw [List.flatMap_cons,
          spliceSub_id v t g.2 hnd (hL g (List.mem_cons_self _ _)),
          ih (fun p hp' => hL p (List.mem_cons_of_mem _ hp'))]
        rfl
  simp [htail pairs hp]

/-- Freeness of an arbitrary string in all raw segments is preserved by
any pass. -/
theorem passMS_free_pres (v t v0 : Str) (m : MaskState)
    (h0 : ¬ Occurs v0 m.1) (hp : ∀ p ∈ m.2, ¬ Occurs v0 p.2) :
    ¬ Occurs v0 (passMS v t m).1 ∧ ∀ q ∈ (passMS v t m).2, ¬ Occurs v0 q.2 := by
  obtain ⟨r0, pairs⟩ := m
  constructor
  · intro hocc
    apply h0
    exact hocc.mono (subSplit_factor v r0 _ (spliceSub_mem1 v t r0))
  · intro q hq hocc
    simp only [passMS, List.mem_append, List.mem_flatMap] at hq
    rcases hq with hq | ⟨p, hpm, hq⟩
    · exact h0 (hocc.mono (subSplit_factor v r0 _ (spliceSub_mem2 v t r0 q hq)))
    · rcases List.mem_cons.mp hq with hq | hq
      · apply hp p hpm
        apply hocc.mono
        rw [hq]
        exact subSplit_factor v p.2 _ (spliceSub_mem1 v t p.2)
      · exact hp p hpm
          (hocc.mono (subSplit_factor v p.2 _ (spliceSub_mem2 v t p.2 q hq)))

/-- After a pass for a nonempty non-lone-digit value, no raw segment
contains that value. -/
theorem passMS_makes_free (v t : Str) (m : MaskState) (hne : v ≠ [])
    (hnd : ¬ (v.length = 1 ∧ isDigitChar (v.headD ' ') = true)) :
    ¬ Occurs v (passMS v t m).1 ∧ ∀ q ∈ (passMS v t m).2, ¬ Occurs v q.2 := by
  obtain ⟨r0, pairs⟩ := m
  constructor
  · exact subSplit_free v r0 hne hnd _ (spliceSub_mem1 v t r0)
  · intro q hq
    simp only [passMS, List.mem_append, List.mem_flatMap] at hq
    rcases hq with hq | ⟨p, hpm, hq⟩
    · exact subSplit_free v r0 hne hnd _ (spliceSub_mem2 v t r0 q hq)
    · rcases List.mem_cons.mp hq with hq | hq
      · rw [hq]
        exact subSplit_free v p.2 hne hnd _ (spliceSub_mem1 v t p.2)
      · exact subSplit_free v p.2 hne hnd _ (spliceSub_mem2 v t p.2 q hq)

/-- The masking fold with freeness tracking: after the fold, no
processed (nonempty, non-lone-digit) value occurs in any raw segment. -/
theorem maskFold_full :
    ∀ (recs : List MaskingRecord) (m : MaskState) (D : Str),
      RawOk D → renderOrigMS m = D → (∀ p ∈ m.2, TagWF p.1.2) →
      (∀ r ∈ recs, TagWF r.masked) →
      (∀ r ∈ recs, r.original ≠ [] ∧
        ¬ (r.original.length = 1 ∧ isDigitChar (r.original.headD ' ') = true)) →
      ∃ m' : MaskState,
        recs.foldl (fun text r => maskPass r.original r.masked text) (renderMS m) =
          renderMS m' ∧
        renderOrigMS m' = D ∧ (∀ p ∈ m'.2, TagWF p.1.2) ∧
        (∀ r ∈ recs, ¬ Occurs r.original m'.1 ∧
          ∀ p ∈ m'.2, ¬ Occurs r.original p.2) ∧
        (∀ v0, (¬ Occurs v0 m.1 ∧ ∀ p ∈ m.2, ¬ Occurs v0 p.2) →
          (¬ Occurs v0 m'.1 ∧ ∀ p ∈ m'.2, ¬ Occurs v0 p.2)) := by
  intro recs
  induction recs with
  | nil =>
      intro m D _ hren htags _ _
      exact ⟨m, rfl, hren, htags,
        fun r hr => absurd hr (List.not_mem_nil r), fun v0 h => h⟩
  | cons r rest ih =>
      intro m D hD hren htags hrecs hvals
      obtain ⟨r0, pairs⟩ := m
      have hraw := rawOk_components pairs r0 hD hren
      have hsim := maskPass_renderMS r.original r.masked (r0, pairs) hraw.1
        (fun p hp => ⟨hraw.2 p hp, htags p hp⟩)
      have hren1 : renderOrigMS (passMS r.original r.masked (r0, pairs)) = D := by
        rw [renderOrigMS_passMS]; exact hren
      have htags1 := passMS_tags r.original r.masked (r0, pairs)
        (hrecs r (List.mem_cons_self _ _)) htags
      obtain ⟨m', hfold, hren', htags', hfree, hpres⟩ :=
        ih (passMS r.original r.masked (r0, pairs)) D hD hren1 htags1
          (fun r' hr' => hrecs r' (List.mem_cons_of_mem _ hr'))
          (fun r' hr' => hvals r' (List.mem_cons_of_mem _ hr'))
      refine ⟨m', ?_, hren', htags', ?_, ?_⟩
      · rw [List.foldl_cons, hsim]
        exact hfold
      · intro r' hr'
        rcases List.mem_cons.mp hr' with hr' | hr'
        · apply hpres
          rw [hr']
          exact passMS_makes_free r.original r.masked (r0, pairs)
            (hvals r (List.mem_cons_self _ _)).1 (hvals r (List.mem_cons_self _ _)).2
        · exact hfree r' hr'
      · intro v0 h
        apply hpres
        exact passMS_free_pres r.original r.masked v0 (r0, pairs) h.1 h.2

/-- A masking fold whose every value occurs in no raw segment is the
identity on the rendered text. -/
theorem maskFold_id :
    ∀ (recs : List MaskingRecord) (m : MaskState) (D : Str),
      RawOk D → renderOrigMS m = D → (∀ p ∈ m.2, TagWF p.1.2) →
      (∀ r ∈ recs, TagWF r.masked) →
      (∀ r ∈ recs,
        ¬ (r.original.length = 1 ∧ isDigitChar (r.original.headD ' ') = true)) →
      (∀ r ∈ recs, ¬ Occurs r.original m.1 ∧ ∀ p ∈ m.2, ¬ Occurs r.original p.2) →
      recs.foldl (fun text r => maskPass r.original r.masked text) (renderMS m) =
        renderMS m := by
  intro recs
  induction recs with
  | nil => intro m D _ _ _ _ _ _; rfl
  | cons r rest ih =>
      intro m D hD hren htags hrecs hnd hfree
      obtain ⟨r0, pairs⟩ := m
      have hraw := rawOk_components pairs r0 hD hren
      have hsim := maskPass_renderMS r.original r.masked (r0, pairs) hraw.1
        (fun p hp => ⟨hraw.2 p hp, htags p hp⟩)
      have hid : passMS r.original r.masked (r0, pairs) = (r0, pairs) :=
        passMS_id r.original r.masked (r0, pairs)
          (hnd r (List.mem_cons_self _ _))
          (hfree r (List.mem_cons_self _ _)).1
          (hfree r (List.mem_cons_self _ _)).2
      rw [List.foldl_cons, hsim, hid]
      exact ih (r0, pairs) D hD hren htags
        (fun r' hr' => hrecs r' (List.mem_cons_of_mem _ hr'))
        (fun r' hr' => hnd r' (List.mem_cons_of_mem _ hr'))
        (fun r' hr' => hfree r' (List.mem_cons_of_mem _ hr'))

/-- C3, amended: the masking pass never alters an existing tag, and a
second full run of the masker over already-masked text is the identity,
provided the document is free of `[ENC:`, labels are bracket-free and
backslash-free (so that the inserted tag is the literal `masked` field
and remains tag-shaped), and no detected value is empty or a lone
digit; single-character values are required to be ASCII so that the
`isdigit` branch test of the code agrees with `isDigitChar` (Python's
`isdigit` also accepts Unicode digits, which stay context-sensitive
under the word-boundary pattern and break the identity). -/
theorem C3_amended_second_run_identity (enc : Nat → Str → Str)
    (pii : List PiiEntry) (D : Str)
    (hD : strContains D (str "[ENC:") = false)
    (hlab : ∀ e ∈ pii, ∀ c ∈ e.1, c ≠ ']' ∧ c ≠ '[' ∧ c ≠ '\\')
    (hval : ∀ e ∈ pii, e.2 ≠ [] ∧
      ¬ (e.2.length = 1 ∧ isDigitChar (e.2.headD ' ') = true))
    (_hascii : ∀ e ∈ pii, e.2.length = 1 → (e.2.headD ' ').toNat < 128) :
    applyMask (processTextPipeline enc pii D).2
      (processTextPipeline enc pii D).1 = (processTextPipeline enc pii D).1 := by
  have hDraw : RawOk D := by
    intro hocc
    rw [← strContains_iff_Occurs] at hocc
    rw [hD] at hocc
    exact Bool.false_ne_true hocc
  have htag := buildMapping_TagWF enc pii
    (fun e he c hc => ⟨(hlab e he c hc).1, (hlab e he c hc).2.1⟩)
  have hmemM : ∀ r ∈ sortByValueLen (buildMapping enc pii),
      r ∈ buildMapping enc pii :=
    fun r hr => (mem_insertionSort r _).mp hr
  have hrv : ∀ r ∈ buildMapping enc pii, r.original ≠ [] ∧
      ¬ (r.original.length = 1 ∧ isDigitChar (r.original.headD ' ') = true) := by
    intro r hr
    obtain ⟨e, he, -, ho⟩ := buildMappingGo_labels enc pii [] 0 r hr
    rw [ho]
    exact hval e he
  obtain ⟨m', hfold, hren', htags', hfree, -⟩ :=
    maskFold_full (sortByValueLen (buildMapping enc pii)) (D, []) D hDraw
      (renderOrigMS_nil D) (fun p hp => absurd hp (List.not_mem_nil p))
      (fun r hr => htag r (hmemM r hr))
      (fun r hr => hrv r (hmemM r hr))
  have hmask : (processTextPipeline enc pii D).1 = renderMS m' := by
    show applyMask (buildMapping enc pii) D = renderMS m'
    unfold applyMask
    rw [← hfold, renderMS_nil]
  show applyMask (buildMapping enc pii) (processTextPipeline enc pii D).1 =
    (processTextPipeline enc pii D).1
  rw [hmask]
  unfold applyMask
  exact maskFold_id (sortByValueLen (buildMapping enc pii)) m' D hDraw hren'
    htags' (fun r hr => htag r (hmemM r hr))
    (fun r hr => (hrv r (hmemM r hr)).2) hfree

set_option maxRecDepth 40000 in
/-- Witness for C3: a concrete run on which the second run is checked
to be the identity. -/
theorem C3_witness :
    strContains (str "ab x") (str "[ENC:") = false ∧
    (∀ e ∈ [(str "A", str "ab")], e.2 ≠ [] ∧
      ¬ (e.2.length = 1 ∧ isDigitChar (e.2.headD ' ') = true)) ∧
    (∀ e ∈ [(str "A", str "ab")], e.2.length = 1 → (e.2.headD ' ').toNat < 128) ∧
    applyMask (processTextPipeline (fun _ _ => str "X") [(str "A", str "ab")]
        (str "ab x")).2
      (processTextPipeline (fun _ _ => str "X") [(str "A", str "ab")]
        (str "ab x")).1 =
      (processTextPipeline (fun _ _ => str "X") [(str "A", str "ab")]
        (str "ab x")).1 :=
  ⟨by decide, by decide, by decide,
    C3_amended_second_run_identity (fun _ _ => str "X") [(str "A", str "ab")]
      (str "ab x") (by decide) (by decide) (by decide) (by decide)⟩

set_option maxRecDepth 40000 in
/-- Counterexample to the unconditional C3: with the lone-digit value
`5` and the value `a` in the document `a5`, the first run masks only
`a` (no word boundary before the `5`), and the second run then masks
the now-isolated `5`, so running the masker twice alters the text. -/
theorem C3_counterexample_single_digit_boundary :
    applyMask (processTextPipeline (fun _ _ => str "X")
        [(str "A", str "5"), (str "B", str "a")] (str "a5")).2
      (processTextPipeline (fun _ _ => str "X")
        [(str "A", str "5"), (str "B", str "a")] (str "a5")).1 ≠
      (processTextPipeline (fun _ _ => str "X")
        [(str "A", str "5"), (str "B", str "a")] (str "a5")).1 := by
  decide
